import Mathlib

/-!
Verification of the Wear-Image-Process measurement pipeline.

This file gives a shallow embedding of the data-handling core of the
repository (monotonicity enforcement, wear-depth resolution, tooth
matching, segmentation reduction, feature scaling and tabulation) and
proves the stated properties about it.

Conventions of the embedding:
* Python floats are modelled by exact rationals (or reals where the code
  computes square roots of arbitrary quantities).
* A Python list of result dictionaries is a `List` of records; the object
  identity of the dictionaries (which the code mutates in place) is made
  explicit by tagging each record with its position in the list.
* Python's stable `sort`/`sorted` is modelled by `List.insertionSort`,
  which is stable for the key orders used here.
* OpenCV-derived measurements of a contour (area, perimeter, centroid,
  bounding box, hull area, distance-transform statistics, edge counts)
  are taken as the abstract description of a contour: the claims under
  study are about the arithmetic performed on these quantities.
-/

/-- A measurement record of the multi-tooth pipeline
(`{wear_case, tooth_number, wear_depth_um, method}` in the Python code). -/
structure MRecord where
  tooth_number : Int
  wear_case : Int
  wear_depth_um : ℚ
  method : String
deriving DecidableEq

/-- A record tagged with its position in the result list.  The tag models the
object identity of the Python dictionaries, which
`enforce_monotonicity_for_all_teeth` mutates in place. -/
abbrev IRec : Type := Nat × MRecord

/-- `MAX_THEORETICAL_WEAR` from `config.py` (`setup_gear_parameters`). -/
def MAX_THEORETICAL_WEAR : ℚ := 1500

/-- Tag each element of a list with its position, starting at `n`. -/
def idxFrom {α : Type} (n : Nat) : List α → List (Nat × α)
  | [] => []
  | a :: l => (n, a) :: idxFrom (n + 1) l

theorem idxFrom_fst_bound {α : Type} (n : Nat) (l : List α) :
    ∀ p ∈ idxFrom n l, n ≤ p.1 := by
  induction l generalizing n with
  | nil => intro p hp; cases hp
  | cons a l ih =>
    intro p hp
    rcases List.mem_cons.mp hp with h | h
    · subst h; exact Nat.le_refl n
    · exact le_trans (Nat.le_succ n) (ih (n + 1) p h)

theorem idxFrom_fst_pairwise {α : Type} (n : Nat) (l : List α) :
    (idxFrom n l).Pairwise (fun p q => p.1 < q.1) := by
  induction l generalizing n with
  | nil => exact List.Pairwise.nil
  | cons a l ih =>
    refine List.pairwise_cons.mpr ⟨?_, ih (n + 1)⟩
    intro q hq
    exact lt_of_lt_of_le (Nat.lt_succ_self n) (idxFrom_fst_bound (n + 1) l q hq)

theorem idxFrom_fst_ne {α : Type} (n : Nat) (l : List α) :
    (idxFrom n l).Pairwise (fun p q => p.1 ≠ q.1) :=
  (idxFrom_fst_pairwise n l).imp fun h => ne_of_lt h

theorem idxFrom_map {α β : Type} (g : α → β) (n : Nat) (l : List α) :
    idxFrom n (l.map g) = (idxFrom n l).map (fun p => (p.1, g p.2)) := by
  induction l generalizing n with
  | nil => rfl
  | cons a l ih => simp [idxFrom, List.map, ih]

theorem idxFrom_idxFrom {α : Type} (n : Nat) (l : List α) :
    idxFrom n (idxFrom n l) = (idxFrom n l).map (fun p => (p.1, p)) := by
  induction l generalizing n with
  | nil => rfl
  | cons a l ih => simp [idxFrom, ih]

/-- Ordering of position-tagged records by wear case: the sort key used by
`enforce_monotonicity_for_all_teeth` (`sort(key=lambda x: x["wear_case"])`). -/
def caseLE (p q : IRec) : Prop := p.2.wear_case ≤ q.2.wear_case

instance : DecidableRel caseLE := fun p q => Int.decLe p.2.wear_case q.2.wear_case

instance : IsTotal IRec caseLE := ⟨fun p q => Int.le_total p.2.wear_case q.2.wear_case⟩

instance : IsTrans IRec caseLE := ⟨fun _ _ _ h h' => le_trans h h'⟩

/-- The forward walk of `enforce_monotonicity_for_all_teeth`: track the
running maximum wear depth; a record whose depth is below the running maximum
is replaced by that maximum, otherwise the maximum is updated.  The position
tags are untouched. -/
def walkAll (maxWear : ℚ) : List IRec → List IRec
  | [] => []
  | p :: rest =>
    if p.2.wear_depth_um < maxWear then
      (p.1, { p.2 with wear_depth_um := maxWear }) :: walkAll maxWear rest
    else
      p :: walkAll p.2.wear_depth_um rest

theorem walkAll_map_fst (m : ℚ) (l : List IRec) :
    (walkAll m l).map Prod.fst = l.map Prod.fst := by
  induction l generalizing m with
  | nil => rfl
  | cons p rest ih =>
    by_cases h : p.2.wear_depth_um < m
    · simp [walkAll, h, ih]
    · simp [walkAll, h, ih]

theorem walkAll_case_map (m : ℚ) (l : List IRec) :
    (walkAll m l).map (fun p => p.2.wear_case) = l.map (fun p => p.2.wear_case) := by
  induction l generalizing m with
  | nil => rfl
  | cons p rest ih =>
    by_cases h : p.2.wear_depth_um < m
    · simp [walkAll, h, ih]
    · simp [walkAll, h, ih]

theorem walkAll_keys (m : ℚ) (l : List IRec) :
    ∀ x ∈ walkAll m l, ∃ y ∈ l, x.1 = y.1 ∧ x.2.tooth_number = y.2.tooth_number ∧
      x.2.wear_case = y.2.wear_case := by
  induction l generalizing m with
  | nil => intro x hx; cases hx
  | cons p rest ih =>
    intro x hx
    by_cases h : p.2.wear_depth_um < m
    · rw [walkAll, if_pos h] at hx
      rcases List.mem_cons.mp hx with h' | h'
      · exact ⟨p, List.mem_cons_self p rest, by rw [h'], by rw [h'], by rw [h']⟩
      · obtain ⟨y, hy, hk⟩ := ih m x h'
        exact ⟨y, List.mem_cons_of_mem p hy, hk⟩
    · rw [walkAll, if_neg h] at hx
      rcases List.mem_cons.mp hx with h' | h'
      · exact ⟨p, List.mem_cons_self p rest, by rw [h'], by rw [h'], by rw [h']⟩
      · obtain ⟨y, hy, hk⟩ := ih p.2.wear_depth_um x h'
        exact ⟨y, List.mem_cons_of_mem p hy, hk⟩

theorem walkAll_ge (m : ℚ) (l : List IRec) :
    ∀ x ∈ walkAll m l, m ≤ x.2.wear_depth_um := by
  induction l generalizing m with
  | nil => intro x hx; cases hx
  | cons p rest ih =>
    intro x hx
    by_cases h : p.2.wear_depth_um < m
    · rw [walkAll, if_pos h] at hx
      rcases List.mem_cons.mp hx with h' | h'
      · subst h'; exact le_refl m
      · exact ih m x h'
    · rw [walkAll, if_neg h] at hx
      rcases List.mem_cons.mp hx with h' | h'
      · subst h'; exact le_of_not_lt h
      · exact le_trans (le_of_not_lt h) (ih p.2.wear_depth_um x h')

theorem walkAll_depth_pairwise (m : ℚ) (l : List IRec) :
    (walkAll m l).Pairwise (fun x y => x.2.wear_depth_um ≤ y.2.wear_depth_um) := by
  induction l generalizing m with
  | nil => exact List.Pairwise.nil
  | cons p rest ih =>
    by_cases h : p.2.wear_depth_um < m
    · rw [walkAll, if_pos h]
      exact List.pairwise_cons.mpr ⟨fun y hy => walkAll_ge m rest y hy, ih m⟩
    · rw [walkAll, if_neg h]
      exact List.pairwise_cons.mpr
        ⟨fun y hy => walkAll_ge p.2.wear_depth_um rest y hy, ih p.2.wear_depth_um⟩

/-- Applying the walk twice changes nothing. -/
theorem walkAll_walkAll (m : ℚ) (l : List IRec) :
    walkAll m (walkAll m l) = walkAll m l := by
  induction l generalizing m with
  | nil => rfl
  | cons p rest ih =>
    by_cases h : p.2.wear_depth_um < m
    · rw [walkAll, if_pos h, walkAll, if_neg (lt_irrefl m)]
      exact congrArg _ (ih m)
    · rw [walkAll, if_neg h, walkAll, if_neg h]
      exact congrArg _ (ih p.2.wear_depth_um)

/-- The records of tooth `t`, in list order, sorted stably by ascending wear
case: the per-tooth group that `enforce_monotonicity_for_all_teeth` builds
(grouping by `tooth_number`, then `sort(key=lambda x: x["wear_case"])`). -/
def toothGroup (t : Int) (l : List IRec) : List IRec :=
  List.insertionSort caseLE (l.filter (fun p => p.2.tooth_number == t))

/-- A tooth's group after the running-maximum walk. -/
def processedGroup (t : Int) (l : List IRec) : List IRec :=
  walkAll 0 (toothGroup t l)

/-- The record stored at position `p.1` after the in-place mutation: the entry
with that position tag in the processed group of the record's tooth (the
mutation only ever rewrites `wear_depth_um` through the shared dictionary). -/
def updateRec (l : List IRec) (p : IRec) : MRecord :=
  ((processedGroup p.2.tooth_number l).find? (fun q => q.1 == p.1)).elim p.2 Prod.snd

/-- `enforce_monotonicity_for_all_teeth` from `data_utils.py`: group the
result list by tooth number, sort each group by ascending wear case, walk it
with a running maximum (initially `0.0`) lifting every dip to the maximum, and
return the result list in its original order with the updated depths. -/
def enforce_monotonicity_for_all_teeth (results : List MRecord) : List MRecord :=
  (idxFrom 0 results).map (updateRec (idxFrom 0 results))

theorem mem_toothGroup_tooth {t : Int} {l : List IRec} {x : IRec}
    (hx : x ∈ toothGroup t l) : x.2.tooth_number = t := by
  have h := (List.mem_insertionSort caseLE).mp hx
  exact beq_iff_eq.mp (List.mem_filter.mp h).2

theorem mem_processedGroup_tooth {t : Int} {l : List IRec} {x : IRec}
    (hx : x ∈ processedGroup t l) : x.2.tooth_number = t := by
  obtain ⟨y, hy, _, hk, _⟩ := walkAll_keys 0 (toothGroup t l) x hx
  exact hk.trans (mem_toothGroup_tooth hy)

theorem toothGroup_case_pairwise (t : Int) (l : List IRec) :
    (toothGroup t l).Pairwise caseLE :=
  List.sorted_insertionSort caseLE _

/-- In the processed group, any strictly later wear case carries at least as
large a depth (and symmetrically). -/
theorem processedGroup_pairwise (t : Int) (l : List IRec) :
    (processedGroup t l).Pairwise (fun x y =>
      (x.2.wear_case < y.2.wear_case → x.2.wear_depth_um ≤ y.2.wear_depth_um) ∧
      (y.2.wear_case < x.2.wear_case → y.2.wear_depth_um ≤ x.2.wear_depth_um)) := by
  have hdep := walkAll_depth_pairwise 0 (toothGroup t l)
  have hcase0 : ((toothGroup t l).map (fun p => p.2.wear_case)).Pairwise (· ≤ ·) :=
    List.pairwise_map.mpr (toothGroup_case_pairwise t l)
  rw [← walkAll_case_map 0 (toothGroup t l)] at hcase0
  have hcase : (walkAll 0 (toothGroup t l)).Pairwise
      (fun x y : IRec => x.2.wear_case ≤ y.2.wear_case) := List.pairwise_map.mp hcase0
  simp only [processedGroup]
  refine (hdep.and hcase).imp ?_
  intro x y hxy
  exact ⟨fun _ => hxy.1, fun hlt => absurd hxy.2 (not_le.mpr hlt)⟩

theorem processedGroup_fst_nodup (t : Int) (results : List MRecord) :
    ((processedGroup t (idxFrom 0 results)).map Prod.fst).Nodup := by
  rw [processedGroup, walkAll_map_fst]
  have hperm : List.Perm ((toothGroup t (idxFrom 0 results)).map Prod.fst)
      (((idxFrom 0 results).filter (fun p => p.2.tooth_number == t)).map Prod.fst) :=
    (List.perm_insertionSort caseLE _).map Prod.fst
  have hsub : (((idxFrom 0 results).filter (fun p => p.2.tooth_number == t)).map
      Prod.fst).Sublist ((idxFrom 0 results).map Prod.fst) :=
    (List.filter_sublist _).map Prod.fst
  have hnodup : ((idxFrom 0 results).map Prod.fst).Nodup :=
    List.pairwise_map.mpr (idxFrom_fst_ne 0 results)
  exact hperm.symm.nodup (hsub.nodup hnodup)

theorem updateRec_found {results : List MRecord} {p : IRec}
    (hp : p ∈ idxFrom 0 results) :
    ∃ q, (processedGroup p.2.tooth_number (idxFrom 0 results)).find?
        (fun q => q.1 == p.1) = some q ∧
      q ∈ processedGroup p.2.tooth_number (idxFrom 0 results) ∧
      q.1 = p.1 ∧ updateRec (idxFrom 0 results) p = q.2 := by
  have hmem : p ∈ toothGroup p.2.tooth_number (idxFrom 0 results) := by
    refine (List.mem_insertionSort caseLE).mpr ?_
    exact List.mem_filter.mpr ⟨hp, beq_iff_eq.mpr rfl⟩
  have hfst : p.1 ∈ (processedGroup p.2.tooth_number (idxFrom 0 results)).map Prod.fst := by
    rw [processedGroup, walkAll_map_fst]
    exact List.mem_map.mpr ⟨p, hmem, rfl⟩
  obtain ⟨q, hq, hq1⟩ := List.mem_map.mp hfst
  have hsome : ((processedGroup p.2.tooth_number (idxFrom 0 results)).find?
      (fun q => q.1 == p.1)).isSome := by
    refine List.find?_isSome.mpr ⟨q, hq, ?_⟩
    exact beq_iff_eq.mpr hq1
  obtain ⟨q', hq'⟩ := Option.isSome_iff_exists.mp hsome
  have hbeq0 := @List.find?_some _ _ _ _ hq'
  have hbeq : (q'.1 == p.1) = true := hbeq0
  refine ⟨q', hq', List.mem_of_find?_eq_some hq', beq_iff_eq.mp hbeq, ?_⟩
  rw [updateRec, hq']
  rfl

theorem updateRec_tooth {results : List MRecord} {p : IRec}
    (hp : p ∈ idxFrom 0 results) :
    (updateRec (idxFrom 0 results) p).tooth_number = p.2.tooth_number := by
  obtain ⟨q, _, hq, _, hval⟩ := updateRec_found hp
  rw [hval]
  exact mem_processedGroup_tooth hq

theorem updateRec_case {results : List MRecord} {p : IRec}
    (hp : p ∈ idxFrom 0 results) :
    (updateRec (idxFrom 0 results) p).wear_case = p.2.wear_case := by
  obtain ⟨q, _, hq, hq1, hval⟩ := updateRec_found hp
  obtain ⟨y, hy, hy1, _, hycase⟩ := walkAll_keys 0 _ q hq
  have hyg : y ∈ (idxFrom 0 results).filter (fun x => x.2.tooth_number == p.2.tooth_number) :=
    (List.mem_insertionSort caseLE).mp hy
  have hymem : y ∈ idxFrom 0 results := (List.mem_filter.mp hyg).1
  have hfst : y.1 = p.1 := by rw [← hy1, hq1]
  have hyp : y = p := by
    have hpair : (idxFrom 0 results).Pairwise (fun a b : IRec => a.1 ≠ b.1) :=
      idxFrom_fst_ne 0 results
    have hsymm : Symmetric (fun a b : IRec => a.1 ≠ b.1) := fun a b hab h => hab h.symm
    by_contra hne
    exact hpair.forall hsymm hymem hp hne hfst
  rw [hval, hycase, hyp]

/-- Claim C1: after multi-tooth monotonicity enforcement, the records of each
tooth, read in ascending wear-case order, have non-decreasing wear depth: any
two output records of the same tooth with strictly ordered wear cases have
correspondingly ordered depths. -/
theorem enforce_all_teeth_monotone (results : List MRecord) (t : Int) :
    ((enforce_monotonicity_for_all_teeth results).filter
      (fun r => r.tooth_number == t)).Pairwise (fun r s =>
        (r.wear_case < s.wear_case → r.wear_depth_um ≤ s.wear_depth_um) ∧
        (s.wear_case < r.wear_case → s.wear_depth_um ≤ r.wear_depth_um)) := by
  have hall : (enforce_monotonicity_for_all_teeth results).Pairwise (fun r s =>
      r.tooth_number = s.tooth_number →
        ((r.wear_case < s.wear_case → r.wear_depth_um ≤ s.wear_depth_um) ∧
         (s.wear_case < r.wear_case → s.wear_depth_um ≤ r.wear_depth_um))) := by
    rw [enforce_monotonicity_for_all_teeth]
    refine List.pairwise_map.mpr ?_
    have hpair : (idxFrom 0 results).Pairwise (fun a b : IRec => a.1 ≠ b.1) :=
      idxFrom_fst_ne 0 results
    refine hpair.imp_of_mem ?_
    intro p q hp hq hne htooth
    obtain ⟨qp, _, hqp, hqp1, hvp⟩ := updateRec_found hp
    obtain ⟨qq, _, hqq, hqq1, hvq⟩ := updateRec_found hq
    have htq : q.2.tooth_number = p.2.tooth_number := by
      have h1 := updateRec_tooth hp
      have h2 := updateRec_tooth hq
      rw [← h1, ← h2, htooth]
    rw [htq] at hqq
    have hne' : qp ≠ qq := by
      intro hc
      exact hne (by rw [← hqp1, ← hqq1, hc])
    have hsym : Symmetric (fun x y : IRec =>
        (x.2.wear_case < y.2.wear_case → x.2.wear_depth_um ≤ y.2.wear_depth_um) ∧
        (y.2.wear_case < x.2.wear_case → y.2.wear_depth_um ≤ x.2.wear_depth_um)) :=
      fun x y h => ⟨h.2, h.1⟩
    have := (processedGroup_pairwise p.2.tooth_number (idxFrom 0 results)).forall
      hsym hqp hqq hne'
    rw [hvp, hvq]
    exact this
  refine (List.Pairwise.filter _ hall).imp_of_mem ?_
  intro r s hr hs h
  exact h (by
    have h1 := beq_iff_eq.mp (List.mem_filter.mp hr).2
    have h2 := beq_iff_eq.mp (List.mem_filter.mp hs).2
    rw [h1, h2])

theorem orderedInsert_map_case (g : IRec → IRec) (a : IRec) (l : List IRec)
    (ha : (g a).2.wear_case = a.2.wear_case)
    (hl : ∀ x ∈ l, (g x).2.wear_case = x.2.wear_case) :
    List.orderedInsert caseLE (g a) (l.map g) = (List.orderedInsert caseLE a l).map g := by
  induction l with
  | nil => rfl
  | cons b l ih =>
    have hb : (g b).2.wear_case = b.2.wear_case := hl b (List.mem_cons_self b l)
    by_cases h : caseLE a b
    · have h' : caseLE (g a) (g b) := by
        show (g a).2.wear_case ≤ (g b).2.wear_case
        rw [ha, hb]; exact h
      rw [List.map_cons, List.orderedInsert_of_le caseLE _ h',
        List.orderedInsert_of_le caseLE _ h, List.map_cons, List.map_cons]
    · have h' : ¬ caseLE (g a) (g b) := by
        show ¬ (g a).2.wear_case ≤ (g b).2.wear_case
        rw [ha, hb]; exact h
      rw [List.map_cons, List.orderedInsert, if_neg h', List.orderedInsert, if_neg h,
        List.map_cons]
      exact congrArg _ (ih (fun x hx => hl x (List.mem_cons_of_mem b hx)))

theorem insertionSort_map_case (g : IRec → IRec) (l : List IRec)
    (hl : ∀ x ∈ l, (g x).2.wear_case = x.2.wear_case) :
    List.insertionSort caseLE (l.map g) = (List.insertionSort caseLE l).map g := by
  induction l with
  | nil => rfl
  | cons b l ih =>
    rw [List.map_cons, List.insertionSort, List.insertionSort,
      ih (fun x hx => hl x (List.mem_cons_of_mem b hx))]
    exact orderedInsert_map_case g b _ (hl b (List.mem_cons_self b l))
      (fun x hx => hl x (List.mem_cons_of_mem b ((List.mem_insertionSort caseLE).mp hx)))

/-- Reading each position back out of the processed list reproduces the
processed list, provided the position tags are distinct. -/
theorem map_find_walkAll (m : ℚ) (l : List IRec)
    (hnd : l.Pairwise (fun p q => p.1 ≠ q.1)) :
    l.map (fun p => (p.1, ((walkAll m l).find? (fun q => q.1 == p.1)).elim p.2 Prod.snd))
      = walkAll m l := by
  induction l generalizing m with
  | nil => rfl
  | cons p rest ih =>
    obtain ⟨hhead, htail⟩ := List.pairwise_cons.mp hnd
    by_cases h : p.2.wear_depth_um < m
    · rw [walkAll, if_pos h, List.map_cons]
      have hfind : ((p.1, { p.2 with wear_depth_um := m }) :: walkAll m rest).find?
          (fun q => q.1 == p.1) = some (p.1, { p.2 with wear_depth_um := m }) :=
        List.find?_cons_of_pos _ (beq_self_eq_true p.1)
      rw [hfind]
      refine congrArg₂ _ rfl ?_
      rw [List.map_congr_left (g := fun x : IRec =>
          (x.1, ((walkAll m rest).find? (fun q => q.1 == x.1)).elim x.2 Prod.snd)) ?_]
      · exact ih m htail
      · intro x hx
        have hne : ((p.1 : Nat) == x.1) = false := beq_eq_false_iff_ne.mpr (hhead x hx)
        rw [List.find?_cons_of_neg]
        simp [hne]
    · rw [walkAll, if_neg h, List.map_cons]
      have hfind : (p :: walkAll p.2.wear_depth_um rest).find?
          (fun q => q.1 == p.1) = some p :=
        List.find?_cons_of_pos _ (beq_self_eq_true p.1)
      rw [hfind]
      refine congrArg₂ _ rfl ?_
      rw [List.map_congr_left (g := fun x : IRec =>
          (x.1, ((walkAll p.2.wear_depth_um rest).find? (fun q => q.1 == x.1)).elim
            x.2 Prod.snd)) ?_]
      · exact ih p.2.wear_depth_um htail
      · intro x hx
        have hne : ((p.1 : Nat) == x.1) = false := beq_eq_false_iff_ne.mpr (hhead x hx)
        rw [List.find?_cons_of_neg]
        simp [hne]

theorem toothGroup_fst_ne (t : Int) (results : List MRecord) :
    (toothGroup t (idxFrom 0 results)).Pairwise (fun p q : IRec => p.1 ≠ q.1) := by
  have hsymm : ∀ {x y : IRec}, x.1 ≠ y.1 → y.1 ≠ x.1 := fun h h' => h h'.symm
  refine ((List.perm_insertionSort caseLE _).pairwise_iff hsymm).mpr ?_
  exact List.Pairwise.sublist (List.filter_sublist _) (idxFrom_fst_ne 0 results)

theorem map_updateRec_toothGroup (t : Int) (results : List MRecord) :
    (toothGroup t (idxFrom 0 results)).map
      (fun p => (p.1, updateRec (idxFrom 0 results) p)) = processedGroup t (idxFrom 0 results) := by
  rw [List.map_congr_left (g := fun p : IRec =>
      (p.1, ((walkAll 0 (toothGroup t (idxFrom 0 results))).find?
        (fun q => q.1 == p.1)).elim p.2 Prod.snd)) ?_]
  · exact map_find_walkAll 0 _ (toothGroup_fst_ne t results)
  · intro p hp
    have ht : p.2.tooth_number = t := mem_toothGroup_tooth hp
    rw [updateRec, ht]
    rfl

theorem toothGroup_enforce (t : Int) (results : List MRecord) :
    toothGroup t (idxFrom 0 (enforce_monotonicity_for_all_teeth results)) =
      processedGroup t (idxFrom 0 results) := by
  have hidx : idxFrom 0 (enforce_monotonicity_for_all_teeth results) =
      (idxFrom 0 results).map (fun p => (p.1, updateRec (idxFrom 0 results) p)) := by
    rw [enforce_monotonicity_for_all_teeth, idxFrom_map, idxFrom_idxFrom, List.map_map]
    rfl
  rw [hidx, toothGroup, List.filter_map]
  rw [List.filter_congr (q := fun p : IRec => p.2.tooth_number == t) ?_]
  · rw [insertionSort_map_case _ _ ?_, ← toothGroup, map_updateRec_toothGroup]
    intro x hx
    exact updateRec_case (List.mem_filter.mp hx).1
  · intro x hx
    show ((updateRec (idxFrom 0 results) x).tooth_number == t) = (x.2.tooth_number == t)
    rw [updateRec_tooth hx]

theorem processedGroup_enforce (t : Int) (results : List MRecord) :
    processedGroup t (idxFrom 0 (enforce_monotonicity_for_all_teeth results)) =
      processedGroup t (idxFrom 0 results) := by
  rw [processedGroup, toothGroup_enforce, processedGroup, walkAll_walkAll]

/-- Claim C10: multi-tooth monotonicity enforcement is idempotent: a second
pass returns the result list unchanged, record for record. -/
theorem enforce_all_teeth_idempotent (results : List MRecord) :
    enforce_monotonicity_for_all_teeth (enforce_monotonicity_for_all_teeth results) =
      enforce_monotonicity_for_all_teeth results := by
  have hidx : idxFrom 0 (enforce_monotonicity_for_all_teeth results) =
      (idxFrom 0 results).map (fun p => (p.1, updateRec (idxFrom 0 results) p)) := by
    rw [enforce_monotonicity_for_all_teeth, idxFrom_map, idxFrom_idxFrom, List.map_map]
    rfl
  conv_lhs => rw [enforce_monotonicity_for_all_teeth]
  rw [hidx, List.map_map]
  conv_rhs => rw [enforce_monotonicity_for_all_teeth]
  refine List.map_congr_left ?_
  intro p hp
  obtain ⟨q, hfind, hqmem, hq1, hval⟩ := updateRec_found hp
  have ht : (updateRec (idxFrom 0 results) p).tooth_number = p.2.tooth_number :=
    updateRec_tooth hp
  simp only [Function.comp_apply]
  rw [← hidx]
  show ((processedGroup (updateRec (idxFrom 0 results) p).tooth_number
      (idxFrom 0 (enforce_monotonicity_for_all_teeth results))).find?
        (fun q => q.1 == p.1)).elim (updateRec (idxFrom 0 results) p) Prod.snd = _
  rw [ht, processedGroup_enforce, hfind]
  exact hval.symm

/-- A measurement record of the single-tooth pipeline
(`{wear_case, wear_depth_um, method}`).  The method tag is optional because
the code guards its update with `if "method" in record`. -/
structure T1Rec where
  wear_case : Int
  wear_depth_um : ℚ
  method : Option String
deriving DecidableEq

/-- Sort key of `enforce_monotonicity_for_tooth1`: ascending wear case. -/
def caseLE1 (p q : T1Rec) : Prop := p.wear_case ≤ q.wear_case

instance : DecidableRel caseLE1 := fun p q => Int.decLe p.wear_case q.wear_case

instance : IsTotal T1Rec caseLE1 := ⟨fun p q => Int.le_total p.wear_case q.wear_case⟩

instance : IsTrans T1Rec caseLE1 := ⟨fun _ _ _ h h' => le_trans h h'⟩

/-- One iteration of the `enforce_monotonicity_for_tooth1` loop: clamp the
current and the (already updated) previous depth to `≥ 0` for the comparison;
on a dip, set the current depth to `min(previous * 1.02, MAX_THEORETICAL_WEAR)`
clamped to `≥ 0`, and append `"_monotonic"` to the method tag when present. -/
def adjustStep (prev r : T1Rec) : T1Rec :=
  if max 0 r.wear_depth_um < max 0 prev.wear_depth_um then
    { r with
      wear_depth_um :=
        max 0 (min (max 0 prev.wear_depth_um * 1.02) MAX_THEORETICAL_WEAR),
      method := r.method.map (fun m => m ++ "_monotonic") }
  else r

/-- The loop of `enforce_monotonicity_for_tooth1` over the records after the
first, threading the updated previous record. -/
def tooth1Walk (prev : T1Rec) : List T1Rec → List T1Rec
  | [] => []
  | r :: rest => adjustStep prev r :: tooth1Walk (adjustStep prev r) rest

/-- The adjustment loop applied to an already sorted result list: the first
record is kept, the loop runs from the second record on. -/
def enforceSortedTooth1 : List T1Rec → List T1Rec
  | [] => []
  | r :: rest => r :: tooth1Walk r rest

/-- `enforce_monotonicity_for_tooth1` from `data_utils.py`: sort by ascending
wear case and run the adjustment loop from the second record on. -/
def enforce_monotonicity_for_tooth1 (results : List T1Rec) : List T1Rec :=
  enforceSortedTooth1 (List.insertionSort caseLE1 results)

theorem adjustStep_bounds (prev r : T1Rec)
    (hr0 : 0 ≤ r.wear_depth_um) (hrM : r.wear_depth_um ≤ MAX_THEORETICAL_WEAR) :
    0 ≤ (adjustStep prev r).wear_depth_um ∧
      (adjustStep prev r).wear_depth_um ≤ MAX_THEORETICAL_WEAR := by
  rw [adjustStep]
  split
  · refine ⟨le_max_left 0 _, ?_⟩
    refine max_le ?_ (min_le_right _ _)
    rw [MAX_THEORETICAL_WEAR]; norm_num
  · exact ⟨hr0, hrM⟩

theorem adjustStep_le (prev r : T1Rec)
    (hp0 : 0 ≤ prev.wear_depth_um) (hpM : prev.wear_depth_um ≤ MAX_THEORETICAL_WEAR)
    (hr0 : 0 ≤ r.wear_depth_um) :
    prev.wear_depth_um ≤ (adjustStep prev r).wear_depth_um := by
  rw [adjustStep]
  split
  case isTrue h =>
    show prev.wear_depth_um ≤ max 0 (min (max 0 prev.wear_depth_um * 1.02) _)
    rw [max_eq_right hp0]
    refine le_trans (le_min ?_ hpM) (le_max_right 0 _)
    nlinarith
  case isFalse h =>
    rw [max_eq_right hp0, max_eq_right hr0] at h
    exact le_of_not_lt h

theorem tooth1Walk_adjacent (prev : T1Rec) (l : List T1Rec)
    (hp : 0 ≤ prev.wear_depth_um ∧ prev.wear_depth_um ≤ MAX_THEORETICAL_WEAR)
    (hl : ∀ r ∈ l, 0 ≤ r.wear_depth_um ∧ r.wear_depth_um ≤ MAX_THEORETICAL_WEAR) :
    ∀ i a b, (prev :: tooth1Walk prev l).get? i = some a →
      (tooth1Walk prev l).get? i = some b → a.wear_depth_um ≤ b.wear_depth_um := by
  induction l generalizing prev with
  | nil => intro i a b _ hb; rw [tooth1Walk, List.get?_nil] at hb; cases hb
  | cons r rest ih =>
    intro i a b ha hb
    rw [tooth1Walk] at ha hb
    match i with
    | 0 =>
      rw [List.get?_cons_zero, Option.some_inj] at ha hb
      subst ha; subst hb
      obtain ⟨hr0, _⟩ := hl r (List.mem_cons_self r rest)
      exact adjustStep_le prev r hp.1 hp.2 hr0
    | Nat.succ j =>
      rw [List.get?_cons_succ] at ha hb
      obtain ⟨hr0, hrM⟩ := hl r (List.mem_cons_self r rest)
      exact ih (adjustStep prev r) (adjustStep_bounds prev r hr0 hrM)
        (fun x hx => hl x (List.mem_cons_of_mem r hx)) j a b ha hb

theorem tooth1Walk_step (prev : T1Rec) (l : List T1Rec) :
    ∀ i a b c, (prev :: tooth1Walk prev l).get? i = some a →
      (tooth1Walk prev l).get? i = some b → l.get? i = some c → b = adjustStep a c := by
  induction l generalizing prev with
  | nil => intro i a b c _ hb _; rw [tooth1Walk, List.get?_nil] at hb; cases hb
  | cons r rest ih =>
    intro i a b c ha hb hc
    rw [tooth1Walk] at ha hb
    match i with
    | 0 =>
      rw [List.get?_cons_zero, Option.some_inj] at ha hb hc
      subst ha; subst hb; subst hc; rfl
    | Nat.succ j =>
      rw [List.get?_cons_succ] at ha hb hc
      exact ih (adjustStep prev r) j a b c ha hb hc

/-- The amended claim C2, packaged: adjacent outputs are non-decreasing, and
whenever the incoming (sorted) depth dips below the updated previous depth,
the output is `min(previous * 1.02, MAX_THEORETICAL_WEAR)` clamped to `≥ 0`
and the method tag gains the `"_monotonic"` suffix. -/
def Tooth1MonotoneSpec (results : List T1Rec) : Prop :=
  (∀ i a b, (enforce_monotonicity_for_tooth1 results).get? i = some a →
    (enforce_monotonicity_for_tooth1 results).get? (i + 1) = some b →
    a.wear_depth_um ≤ b.wear_depth_um) ∧
  (∀ i a b c, (enforce_monotonicity_for_tooth1 results).get? i = some a →
    (enforce_monotonicity_for_tooth1 results).get? (i + 1) = some b →
    (List.insertionSort caseLE1 results).get? (i + 1) = some c →
    max 0 c.wear_depth_um < max 0 a.wear_depth_um →
      b.wear_depth_um =
        max 0 (min (a.wear_depth_um * 1.02) MAX_THEORETICAL_WEAR) ∧
      ∀ m, c.method = some m → b.method = some (m ++ "_monotonic"))

theorem enforce_tooth1_step (results : List T1Rec) :
    ∀ i a b c, (enforce_monotonicity_for_tooth1 results).get? i = some a →
      (enforce_monotonicity_for_tooth1 results).get? (i + 1) = some b →
      (List.insertionSort caseLE1 results).get? (i + 1) = some c →
      b = adjustStep a c := by
  intro i a b c ha hb hc
  rw [enforce_monotonicity_for_tooth1] at ha hb
  rcases hs : List.insertionSort caseLE1 results with _ | ⟨r, rest⟩
  · rw [hs, List.get?_nil] at hc; cases hc
  · rw [hs, enforceSortedTooth1] at ha hb
    rw [hs] at hc
    rw [List.get?_cons_succ] at hb hc
    exact tooth1Walk_step r rest i a b c ha hb hc

/-- Claim C2 (amended): for records whose depths lie in
`[0, MAX_THEORETICAL_WEAR]`, single-tooth monotonicity enforcement yields
non-decreasing adjacent depths, and each dip is replaced by the clamped
`1.02`-increment of the updated previous depth with a `"_monotonic"` tag. -/
theorem enforce_tooth1_monotone (results : List T1Rec)
    (hdepth : ∀ r ∈ results, 0 ≤ r.wear_depth_um ∧
      r.wear_depth_um ≤ MAX_THEORETICAL_WEAR) :
    Tooth1MonotoneSpec results := by
  have hsorted : ∀ r ∈ List.insertionSort caseLE1 results, 0 ≤ r.wear_depth_um ∧
      r.wear_depth_um ≤ MAX_THEORETICAL_WEAR :=
    fun r hr => hdepth r ((List.mem_insertionSort caseLE1).mp hr)
  constructor
  · intro i a b ha hb
    rw [enforce_monotonicity_for_tooth1] at ha hb
    rcases hs : List.insertionSort caseLE1 results with _ | ⟨r, rest⟩
    · rw [hs] at ha; rw [enforceSortedTooth1, List.get?_nil] at ha; cases ha
    · rw [hs, enforceSortedTooth1] at ha hb
      rw [List.get?_cons_succ] at hb
      refine tooth1Walk_adjacent r rest ?_ ?_ i a b ha hb
      · exact hsorted r (hs ▸ List.mem_cons_self r rest)
      · exact fun x hx => hsorted x (hs ▸ List.mem_cons_of_mem r hx)
  · intro i a b c ha hb hc htrig
    have hstep := enforce_tooth1_step results i a b c ha hb hc
    have ha0 : 0 < max 0 a.wear_depth_um :=
      lt_of_le_of_lt (le_max_left 0 _) htrig
    have hapos : max 0 a.wear_depth_um = a.wear_depth_um := by
      rcases le_or_lt a.wear_depth_um 0 with h | h
      · rw [max_eq_left h] at ha0; exact absurd ha0 (lt_irrefl 0)
      · exact max_eq_right (le_of_lt h)
    rw [hstep, adjustStep, if_pos htrig]
    rw [hapos]
    exact ⟨rfl, fun m hm => by rw [hm]; rfl⟩

/-- The demonstration input for the witness of claim C2. -/
def t1demo : List T1Rec :=
  [⟨1, 10, some "feature_based"⟩, ⟨2, 5, some "feature_based"⟩, ⟨3, 20, none⟩]

theorem enforce_tooth1_monotone_witness :
    (∀ r ∈ t1demo, 0 ≤ r.wear_depth_um ∧
      r.wear_depth_um ≤ MAX_THEORETICAL_WEAR) ∧ Tooth1MonotoneSpec t1demo :=
  ⟨by decide, enforce_tooth1_monotone t1demo (by decide)⟩

/-- Claim C2 as stated is false: with negative stored depths the clamped
comparison sees no dip, the records keep their depths, and an adjacent output
pair decreases (`-3` is followed by `-5`). -/
theorem enforce_tooth1_counterexample :
    (enforce_monotonicity_for_tooth1
      [⟨1, -3, some "feature_based"⟩, ⟨2, -5, some "feature_based"⟩]).get? 0 =
        some ⟨1, -3, some "feature_based"⟩ ∧
    (enforce_monotonicity_for_tooth1
      [⟨1, -3, some "feature_based"⟩, ⟨2, -5, some "feature_based"⟩]).get? 1 =
        some ⟨2, -5, some "feature_based"⟩ ∧
    ¬ ((-3 : ℚ) ≤ -5) := by decide

/-- `manual_adjustments` from `config.py` (`setup_analysis_specific_config`). -/
def manual_adjustments : List (Int × ℚ) :=
  [(1, 38), (2, 77), (4, 152), (5, 166), (6, 185)]

/-- `optimized_results_w7_plus` from `config.py`. -/
def optimized_results_w7_plus : List (Int × ℚ) :=
  [(7, 258.7), (8, 271.6), (9, 285.2), (10, 299.5), (11, 314.4), (12, 330.1),
   (13, 346.7), (14, 364.0), (15, 382.2), (16, 401.3), (17, 421.4), (18, 442.4),
   (19, 464.6), (20, 487.8), (21, 512.2), (22, 537.8), (23, 564.7), (24, 592.9),
   (25, 622.5), (26, 653.7), (27, 686.4), (28, 720.7), (29, 756.7), (30, 794.5),
   (31, 834.3), (32, 876.0), (33, 919.8), (34, 965.8), (35, 1000.0)]

/-- The hardcoded ground-truth fallback of `load_ground_truth_data` in
`config.py` (the table used when no `ground_truth_measurements.csv` exists). -/
def actual_measurements : List (Int × ℚ) :=
  [(1, 40), (2, 81), (3, 115), (4, 159), (5, 175), (6, 195), (7, 227), (8, 256),
   (9, 276), (10, 294), (11, 305), (12, 323), (13, 344), (14, 378), (15, 400),
   (16, 417), (17, 436), (18, 450), (19, 466), (20, 488), (21, 510), (22, 524),
   (23, 557), (24, 579), (25, 608), (26, 637), (27, 684), (28, 720), (29, 744),
   (30, 769), (31, 797), (32, 825), (33, 853), (34, 890), (35, 932)]

/-- The wear-depth resolution chain of `analyze_tooth1_wear_depth`
(`tooth1_analyzer.py`, lines 88-106): manual adjustments first, the optimized
W7+ table second, the ground-truth table third, the `area_loss * 1000`
feature fallback last, with the final clamp to `[0, MAX_THEORETICAL_WEAR]`.
A feature dictionary is modelled as an association list with default `0`
(`features.get('area_loss', 0)`). -/
def dictLookup {α β : Type} [DecidableEq α] (k : α) : List (α × β) → Option β
  | [] => none
  | kv :: l => if kv.1 = k then some kv.2 else dictLookup k l

def resolve_tooth1_depth (wear_num : Int) (features : List (String × ℚ)) : ℚ × String :=
  let pick : ℚ × String :=
    match dictLookup wear_num manual_adjustments with
    | some v => (v, "manual_adjustment")
    | none =>
      match dictLookup wear_num optimized_results_w7_plus with
      | some v => (v, "optimized")
      | none =>
        match dictLookup wear_num actual_measurements with
        | some v => (v, "actual_measurement")
        | none => ((dictLookup "area_loss" features).getD 0 * 1000, "feature_based")
  (max 0 (min pick.1 MAX_THEORETICAL_WEAR), pick.2)

/-- Claim C3: single-tooth wear-depth resolution follows the fixed precedence
manual / optimized / ground truth / feature fallback, tags the result with
the matching method string, always clamps into `[0, MAX_THEORETICAL_WEAR]`,
and in particular wear case 1 resolves to `(38.0, "manual_adjustment")` for
every feature vector. -/
theorem resolve_tooth1_precedence (w : Int) (f : List (String × ℚ)) :
    (0 ≤ (resolve_tooth1_depth w f).1 ∧
      (resolve_tooth1_depth w f).1 ≤ MAX_THEORETICAL_WEAR) ∧
    (∀ v, dictLookup w manual_adjustments = some v →
      resolve_tooth1_depth w f =
        (max 0 (min v MAX_THEORETICAL_WEAR), "manual_adjustment")) ∧
    (dictLookup w manual_adjustments = none →
      ∀ v, dictLookup w optimized_results_w7_plus = some v →
        resolve_tooth1_depth w f =
          (max 0 (min v MAX_THEORETICAL_WEAR), "optimized")) ∧
    (dictLookup w manual_adjustments = none →
      dictLookup w optimized_results_w7_plus = none →
        ∀ v, dictLookup w actual_measurements = some v →
          resolve_tooth1_depth w f =
            (max 0 (min v MAX_THEORETICAL_WEAR), "actual_measurement")) ∧
    (dictLookup w manual_adjustments = none →
      dictLookup w optimized_results_w7_plus = none →
        dictLookup w actual_measurements = none →
          resolve_tooth1_depth w f =
            (max 0 (min ((dictLookup "area_loss" f).getD 0 * 1000) MAX_THEORETICAL_WEAR),
              "feature_based")) ∧
    resolve_tooth1_depth 1 f = (38, "manual_adjustment") := by
  refine ⟨⟨le_max_left 0 _, ?_⟩, ?_, ?_, ?_, ?_, ?_⟩
  · refine max_le ?_ (min_le_right _ _)
    rw [MAX_THEORETICAL_WEAR]; norm_num
  · intro v hv
    simp only [resolve_tooth1_depth, hv]
  · intro h0 v hv
    simp only [resolve_tooth1_depth, h0, hv]
  · intro h0 h1 v hv
    simp only [resolve_tooth1_depth, h0, h1, hv]
  · intro h0 h1 h2
    simp only [resolve_tooth1_depth, h0, h1, h2]
  · show (max 0 (min 38 MAX_THEORETICAL_WEAR), "manual_adjustment") = (38, "manual_adjustment")
    rw [MAX_THEORETICAL_WEAR]
    norm_num

/-- `tooth1_ground_truth` from `predict_wear_depth_from_features` in
`wear_analyzer.py`. -/
def tooth1_ground_truth : List (Int × ℚ) :=
  [(1, 38.0), (2, 77.0), (3, 115.0), (4, 152.0), (5, 166.0), (6, 185.0),
   (7, 258.7), (8, 271.6), (9, 285.2), (10, 299.5), (11, 314.4), (12, 330.1),
   (13, 346.7), (14, 364.0), (15, 382.2), (16, 401.3), (17, 421.4), (18, 442.4),
   (19, 464.6), (20, 487.8), (21, 512.2), (22, 537.8), (23, 564.7), (24, 592.9),
   (25, 622.5), (26, 653.7), (27, 686.4), (28, 720.7), (29, 756.7), (30, 794.5),
   (31, 834.3), (32, 876.0), (33, 919.8), (34, 965.8), (35, 1000.0)]

/-- `predict_wear_depth_from_features` from `wear_analyzer.py`.  The Gaussian
draw `np.random.normal(1.0, 0.05)` is modelled by the explicit `noise`
parameter (one independent draw per call); the extracted feature vector is
carried but, as in the code's table branch, never read. -/
def predict_wear_depth_from_features (noise : ℚ) (features : List ℚ)
    (wear_case tooth_number : Int) : ℚ :=
  match dictLookup wear_case tooth1_ground_truth with
  | some base =>
    if tooth_number = 1 then base
    else max 0 (min (base * noise) MAX_THEORETICAL_WEAR)
  | none =>
    min ((wear_case : ℚ) * 25 * (1 + ((tooth_number : ℚ) - 1) * 0.02))
      MAX_THEORETICAL_WEAR

theorem lookup_mem {l : List (Int × ℚ)} {a : Int} {b : ℚ}
    (h : dictLookup a l = some b) : (a, b) ∈ l := by
  induction l with
  | nil => cases h
  | cons kv l ih =>
    rw [dictLookup] at h
    by_cases hk : kv.1 = a
    · rw [if_pos hk] at h
      have h2 : kv.2 = b := Option.some_inj.mp h
      rw [← hk, ← h2]
      exact List.mem_cons_self kv l
    · rw [if_neg hk] at h
      exact List.mem_cons_of_mem kv (ih h)

set_option maxHeartbeats 2000000 in
theorem resolve_matches_ground_truth :
    ∀ kv ∈ tooth1_ground_truth, ∀ f, (resolve_tooth1_depth kv.1 f).1 = kv.2 := by
  intro kv hkv f
  fin_cases hkv <;>
    norm_num [resolve_tooth1_depth, dictLookup, manual_adjustments,
      optimized_results_w7_plus, actual_measurements, MAX_THEORETICAL_WEAR]

/-- Claim C8: on every wear case covered by the lookup tables, the multi-tooth
pipeline gives tooth 1 exactly the single-tooth pipeline's resolved depth, and
every other tooth the same base value times its noise factor, clamped into
`[0, MAX_THEORETICAL_WEAR]`. -/
theorem predict_consistent_with_tooth1 (w : Int) (b : ℚ)
    (hb : dictLookup w tooth1_ground_truth = some b) :
    (∀ noise features f,
      predict_wear_depth_from_features noise features w 1 =
        (resolve_tooth1_depth w f).1) ∧
    (∀ noise features t, t ≠ 1 →
      predict_wear_depth_from_features noise features w t =
        max 0 (min (b * noise) MAX_THEORETICAL_WEAR)) := by
  constructor
  · intro noise features f
    rw [resolve_matches_ground_truth (w, b) (lookup_mem hb) f]
    simp only [predict_wear_depth_from_features, hb, if_pos]
  · intro noise features t ht
    simp only [predict_wear_depth_from_features, hb, if_neg ht]

theorem predict_consistent_witness :
    dictLookup 3 tooth1_ground_truth = some 115 ∧
    ((∀ noise features f,
      predict_wear_depth_from_features noise features 3 1 =
        (resolve_tooth1_depth 3 f).1) ∧
    (∀ noise features t, t ≠ 1 →
      predict_wear_depth_from_features noise features 3 t =
        max 0 (min (115 * noise) MAX_THEORETICAL_WEAR))) :=
  ⟨by norm_num [tooth1_ground_truth, dictLookup],
    predict_consistent_with_tooth1 3 115
      (by norm_num [tooth1_ground_truth, dictLookup])⟩

/-- The OpenCV-level description of a contour as the matcher reads it: area
(`cv2.contourArea`), perimeter (`cv2.arcLength`) and centroid
(`calculate_contour_centroid`). -/
structure Contour where
  area : ℚ
  perimeter : ℚ
  cx : ℚ
  cy : ℚ
deriving DecidableEq

/-- Squared centroid distance between two contours. -/
def centroidDist2 (h c : Contour) : ℚ := (h.cx - c.cx) ^ 2 + (h.cy - c.cy) ^ 2

/-- The weighted similarity score of
`find_most_similar_tooth_contour_early_wear`:
`0.2 * distance / maxDist + 0.5 * |Δarea| / max(area, 1) +
0.3 * |Δperimeter| / max(perimeter, 1)`.  `sq` stands for the real square
root (`np.sqrt`), kept abstract so the model stays computable. -/
def matchScore (sq : ℚ → ℚ) (h c : Contour) (maxDist : ℚ) : ℚ :=
  0.2 * (sq (centroidDist2 h c) / maxDist) +
  0.5 * (|c.area - h.area| / max h.area 1) +
  0.3 * (|c.perimeter - h.perimeter| / max h.perimeter 1)

/-- The matcher's gates: worn area within `[20, 5000]` and centroid distance
at most `maxDist` (the code skips a candidate when the distance exceeds it). -/
def gatedContour (sq : ℚ → ℚ) (h : Contour) (maxDist : ℚ) (c : Contour) : Prop :=
  (20 ≤ c.area ∧ c.area ≤ 5000) ∧ sq (centroidDist2 h c) ≤ maxDist

instance (sq : ℚ → ℚ) (h : Contour) (maxDist : ℚ) (c : Contour) :
    Decidable (gatedContour sq h maxDist c) :=
  inferInstanceAs (Decidable ((20 ≤ c.area ∧ c.area ≤ 5000) ∧
    sq (centroidDist2 h c) ≤ maxDist))

/-- The candidate loop of `find_most_similar_tooth_contour_early_wear`,
threading `(best_score, best_match)`; `none` stands for the initial
`best_score = inf`, `best_match = None`. -/
def findBest (sq : ℚ → ℚ) (h : Contour) (maxDist : ℚ)
    (best : Option (ℚ × Int × Contour)) : List (Int × Contour) → Option (ℚ × Int × Contour)
  | [] => best
  | c :: rest =>
    if gatedContour sq h maxDist c.2 then
      match best with
      | none => findBest sq h maxDist (some (matchScore sq h c.2 maxDist, c)) rest
      | some (bs, bm) =>
        if matchScore sq h c.2 maxDist < bs then
          findBest sq h maxDist (some (matchScore sq h c.2 maxDist, c)) rest
        else findBest sq h maxDist (some (bs, bm)) rest
    else findBest sq h maxDist best rest

/-- `find_most_similar_tooth_contour_early_wear` from
`tooth1_image_processor.py` (the empty-input `(None, None)` return and a
no-match `None` are both modelled by `none`). -/
def find_most_similar_tooth_contour_early_wear (sq : ℚ → ℚ) (healthy : Contour)
    (worn_contours : List (Int × Contour)) (maxDist : ℚ := 300) : Option (Int × Contour) :=
  (findBest sq healthy maxDist none worn_contours).map Prod.snd

theorem findBest_none (sq : ℚ → ℚ) (h : Contour) (maxDist : ℚ)
    (l : List (Int × Contour)) (best : Option (ℚ × Int × Contour))
    (hl : ∀ c ∈ l, ¬ gatedContour sq h maxDist c.2) :
    findBest sq h maxDist best l = best := by
  induction l generalizing best with
  | nil => rfl
  | cons c rest ih =>
    rw [findBest.eq_def]
    simp only []
    rw [if_neg (hl c (List.mem_cons_self c rest))]
    exact ih best (fun x hx => hl x (List.mem_cons_of_mem c hx))

theorem findBest_mem (sq : ℚ → ℚ) (h : Contour) (maxDist : ℚ)
    (l : List (Int × Contour)) :
    ∀ best r, findBest sq h maxDist best l = some r →
      best = some r ∨ (r.2 ∈ l ∧ gatedContour sq h maxDist r.2.2 ∧
        r.1 = matchScore sq h r.2.2 maxDist) := by
  induction l with
  | nil => intro best r hr; exact Or.inl hr
  | cons c rest ih =>
    intro best r hr
    rw [findBest.eq_def] at hr
    simp only [] at hr
    by_cases hg : gatedContour sq h maxDist c.2
    · rw [if_pos hg] at hr
      rcases best with _ | ⟨bs, bm⟩
      · simp only [] at hr
        rcases ih _ r hr with h' | h'
        · have h1 : (matchScore sq h c.2 maxDist, c) = r := Option.some_inj.mp h'
          rw [← h1]
          exact Or.inr ⟨List.mem_cons_self c rest, hg, rfl⟩
        · exact Or.inr ⟨List.mem_cons_of_mem c h'.1, h'.2⟩
      · simp only [] at hr
        by_cases hlt : matchScore sq h c.2 maxDist < bs
        · rw [if_pos hlt] at hr
          rcases ih _ r hr with h' | h'
          · have h1 : (matchScore sq h c.2 maxDist, c) = r := Option.some_inj.mp h'
            rw [← h1]
            exact Or.inr ⟨List.mem_cons_self c rest, hg, rfl⟩
          · exact Or.inr ⟨List.mem_cons_of_mem c h'.1, h'.2⟩
        · rw [if_neg hlt] at hr
          rcases ih _ r hr with h' | h'
          · exact Or.inl h'
          · exact Or.inr ⟨List.mem_cons_of_mem c h'.1, h'.2⟩
    · rw [if_neg hg] at hr
      rcases ih _ r hr with h' | h'
      · exact Or.inl h'
      · exact Or.inr ⟨List.mem_cons_of_mem c h'.1, h'.2⟩

theorem findBest_le (sq : ℚ → ℚ) (h : Contour) (maxDist : ℚ)
    (l : List (Int × Contour)) :
    ∀ best r, findBest sq h maxDist best l = some r →
      (∀ bs bm, best = some (bs, bm) → r.1 ≤ bs) ∧
      (∀ c ∈ l, gatedContour sq h maxDist c.2 →
        r.1 ≤ matchScore sq h c.2 maxDist) := by
  induction l with
  | nil =>
    intro best r hr
    constructor
    · intro bs bm hb
      rw [hb] at hr
      have h1 : (bs, bm) = r := Option.some_inj.mp hr
      rw [← h1]
    · intro c hc
      exact absurd hc (List.not_mem_nil c)
  | cons c rest ih =>
    intro best r hr
    rw [findBest.eq_def] at hr
    simp only [] at hr
    by_cases hg : gatedContour sq h maxDist c.2
    · rw [if_pos hg] at hr
      rcases best with _ | ⟨bs, bm⟩
      · simp only [] at hr
        obtain ⟨ihb, ihl⟩ := ih _ r hr
        have hrc : r.1 ≤ matchScore sq h c.2 maxDist := ihb _ _ rfl
        constructor
        · intro bs bm hb
          cases hb
        · intro x hx hxg
          rcases List.mem_cons.mp hx with h' | h'
          · rw [h']; exact hrc
          · exact ihl x h' hxg
      · simp only [] at hr
        by_cases hlt : matchScore sq h c.2 maxDist < bs
        · rw [if_pos hlt] at hr
          obtain ⟨ihb, ihl⟩ := ih _ r hr
          have hrc : r.1 ≤ matchScore sq h c.2 maxDist := ihb _ _ rfl
          refine ⟨?_, ?_⟩
          · intro bs' bm' hb
            have hbs : bs = bs' := congrArg Prod.fst (Option.some_inj.mp hb)
            rw [← hbs]
            exact le_trans hrc (le_of_lt hlt)
          · intro x hx hxg
            rcases List.mem_cons.mp hx with h' | h'
            · rw [h']; exact hrc
            · exact ihl x h' hxg
        · rw [if_neg hlt] at hr
          obtain ⟨ihb, ihl⟩ := ih _ r hr
          have hrb : r.1 ≤ bs := ihb _ _ rfl
          refine ⟨?_, ?_⟩
          · intro bs' bm' hb
            have hbs : bs = bs' := congrArg Prod.fst (Option.some_inj.mp hb)
            rw [← hbs]
            exact hrb
          · intro x hx hxg
            rcases List.mem_cons.mp hx with h' | h'
            · rw [h']
              exact le_trans hrb (not_lt.mp hlt)
            · exact ihl x h' hxg
    · rw [if_neg hg] at hr
      obtain ⟨ihb, ihl⟩ := ih _ r hr
      refine ⟨ihb, ?_⟩
      intro x hx hxg
      rcases List.mem_cons.mp hx with h' | h'
      · rw [h'] at hxg; exact absurd hxg hg
      · exact ihl x h' hxg

theorem findBest_isSome (sq : ℚ → ℚ) (h : Contour) (maxDist : ℚ)
    (l : List (Int × Contour)) :
    ∀ best, (best.isSome = true ∨ ∃ c ∈ l, gatedContour sq h maxDist c.2) →
      (findBest sq h maxDist best l).isSome = true := by
  induction l with
  | nil =>
    intro best hb
    rcases hb with hb | ⟨c, hc, _⟩
    · exact hb
    · exact absurd hc (List.not_mem_nil c)
  | cons c rest ih =>
    intro best hb
    rw [findBest.eq_def]
    simp only []
    by_cases hg : gatedContour sq h maxDist c.2
    · rw [if_pos hg]
      rcases best with _ | ⟨bs, bm⟩
      · exact ih _ (Or.inl rfl)
      · simp only []
        by_cases hlt : matchScore sq h c.2 maxDist < bs
        · rw [if_pos hlt]; exact ih _ (Or.inl rfl)
        · rw [if_neg hlt]; exact ih _ (Or.inl rfl)
    · rw [if_neg hg]
      refine ih best ?_
      rcases hb with hb | ⟨x, hx, hxg⟩
      · exact Or.inl hb
      · rcases List.mem_cons.mp hx with h' | h'
        · rw [h'] at hxg; exact absurd hxg hg
        · exact Or.inr ⟨x, h', hxg⟩

/-- When some candidate passes the gates, the matcher returns a gated
candidate whose score is minimal among all gated candidates. -/
theorem find_most_similar_min (sq : ℚ → ℚ) (healthy : Contour)
    (cands : List (Int × Contour)) (maxDist : ℚ)
    (hex : ∃ c ∈ cands, gatedContour sq healthy maxDist c.2) :
    ∃ m ∈ cands,
      find_most_similar_tooth_contour_early_wear sq healthy cands maxDist = some m ∧
      gatedContour sq healthy maxDist m.2 ∧
      ∀ c ∈ cands, gatedContour sq healthy maxDist c.2 →
        matchScore sq healthy m.2 maxDist ≤ matchScore sq healthy c.2 maxDist := by
  have hs := findBest_isSome sq healthy maxDist cands none (Or.inr hex)
  obtain ⟨r, hr⟩ := Option.isSome_iff_exists.mp hs
  rcases findBest_mem sq healthy maxDist cands none r hr with h' | ⟨hmem, hgat, hsc⟩
  · cases h'
  · obtain ⟨_, hle⟩ := findBest_le sq healthy maxDist cands none r hr
    refine ⟨r.2, hmem, ?_, hgat, ?_⟩
    · rw [find_most_similar_tooth_contour_early_wear, hr]; rfl
    · intro c hc hcg
      rw [← hsc]
      exact hle c hc hcg

/-- Claim C4 (amended): the matcher returns `none` exactly when no candidate
passes the area band and distance gates; otherwise it returns a gated
candidate of minimal weighted score; and a candidate at zero centroid
distance with the healthy tooth's exact area and perimeter is selected
whenever every other gated candidate scores strictly positive. -/
theorem find_most_similar_spec (sq : ℚ → ℚ) (healthy : Contour)
    (cands : List (Int × Contour)) (maxDist : ℚ) :
    ((∀ c ∈ cands, ¬ gatedContour sq healthy maxDist c.2) →
      find_most_similar_tooth_contour_early_wear sq healthy cands maxDist = none) ∧
    ((∃ c ∈ cands, gatedContour sq healthy maxDist c.2) →
      ∃ m ∈ cands,
        find_most_similar_tooth_contour_early_wear sq healthy cands maxDist = some m ∧
        gatedContour sq healthy maxDist m.2 ∧
        ∀ c ∈ cands, gatedContour sq healthy maxDist c.2 →
          matchScore sq healthy m.2 maxDist ≤ matchScore sq healthy c.2 maxDist) ∧
    (∀ m ∈ cands, gatedContour sq healthy maxDist m.2 →
      centroidDist2 healthy m.2 = 0 → m.2.area = healthy.area →
      m.2.perimeter = healthy.perimeter → sq 0 = 0 →
      (∀ c ∈ cands, gatedContour sq healthy maxDist c.2 → c ≠ m →
        0 < matchScore sq healthy c.2 maxDist) →
      find_most_similar_tooth_contour_early_wear sq healthy cands maxDist = some m) := by
  refine ⟨?_, find_most_similar_min sq healthy cands maxDist, ?_⟩
  · intro hnone
    rw [find_most_similar_tooth_contour_early_wear,
      findBest_none sq healthy maxDist cands none hnone]
    rfl
  · intro m hm hgat hd0 harea hperim hsq0 hpos
    obtain ⟨m', hm'mem, heq, hm'g, hmin⟩ :=
      find_most_similar_min sq healthy cands maxDist ⟨m, hm, hgat⟩
    have hscore_m : matchScore sq healthy m.2 maxDist = 0 := by
      rw [matchScore, hd0, hsq0, harea, hperim]
      simp
    by_cases hmm : m' = m
    · rw [hmm] at heq
      exact heq
    · exfalso
      have h1 : 0 < matchScore sq healthy m'.2 maxDist := hpos m' hm'mem hm'g hmm
      have h2 : matchScore sq healthy m'.2 maxDist ≤ 0 := by
        rw [← hscore_m]
        exact hmin m hm hgat
      linarith

/-- Claim C4 as stated is false: a candidate with zero centroid distance and
the healthy tooth's exact area (but a very different perimeter) loses to a
spatially perfect candidate with slightly different area, so it is not
selected. -/
theorem find_most_similar_counterexample :
    find_most_similar_tooth_contour_early_wear (fun q => q) ⟨100, 40, 0, 0⟩
      [(1, ⟨100, 400, 0, 0⟩), (2, ⟨120, 40, 0, 0⟩)] 300 =
        some (2, ⟨120, 40, 0, 0⟩) ∧
    centroidDist2 ⟨100, 40, 0, 0⟩ ⟨100, 400, 0, 0⟩ = 0 ∧
    Contour.area ⟨100, 400, 0, 0⟩ = Contour.area ⟨100, 40, 0, 0⟩ ∧
    (2, (⟨120, 40, 0, 0⟩ : Contour)) ≠ (1, (⟨100, 400, 0, 0⟩ : Contour)) := by
  refine ⟨?_, by norm_num [centroidDist2], rfl, by decide⟩
  norm_num [find_most_similar_tooth_contour_early_wear, findBest.eq_def, matchScore,
    gatedContour, centroidDist2, abs_of_nonneg, abs_of_nonpos]

/-- `EXPECTED_TOOTH_COUNT` from `config.py`. -/
def EXPECTED_TOOTH_COUNT : Nat := 35

/-- One filtered segmentation candidate: the `(angle_deg, contour, area)`
triple both extraction functions build after filtering, with the contour kept
abstract (type `γ`). -/
structure Candidate (γ : Type) where
  angle : ℚ
  contour : γ
  area : ℚ

/-- Ascending angle around the image center: the sort key of
`teeth_with_angles.sort(key=lambda x: x[0])`. -/
def angleLE {γ : Type} (a b : Candidate γ) : Prop := a.angle ≤ b.angle

/-- Descending area: the key of `sort(key=lambda x: x[2], reverse=True)`. -/
def areaGE {γ : Type} (a b : Candidate γ) : Prop := b.area ≤ a.area

instance {γ : Type} : DecidableRel (angleLE (γ := γ)) :=
  fun a b => inferInstanceAs (Decidable (a.angle ≤ b.angle))

instance {γ : Type} : IsTotal (Candidate γ) angleLE := ⟨fun a b => le_total a.angle b.angle⟩

instance {γ : Type} : IsTrans (Candidate γ) angleLE := ⟨fun _ _ _ h h' => le_trans h h'⟩

instance {γ : Type} : DecidableRel (areaGE (γ := γ)) :=
  fun a b => inferInstanceAs (Decidable (b.area ≤ a.area))

instance {γ : Type} : IsTotal (Candidate γ) areaGE := ⟨fun a b => le_total b.area a.area⟩

instance {γ : Type} : IsTrans (Candidate γ) areaGE := ⟨fun _ _ _ h h' => le_trans h' h⟩

/-- Python's `min(candidates, key=f)`: the first element attaining the
minimal key. -/
def minBy {γ : Type} (f : Candidate γ → ℚ) : List (Candidate γ) → Option (Candidate γ)
  | [] => none
  | a :: l =>
    match minBy f l with
    | none => some a
    | some b => if f a ≤ f b then some a else some b

/-- Reduction policy of `extract_teeth_from_gear_image` (`image_processor.py`):
with more candidates than `EXPECTED_TOOTH_COUNT`, keep the largest areas
(stable descending sort, truncate), then re-sort by angle. -/
def reduceLargest {γ : Type} (sorted : List (Candidate γ)) : List (Candidate γ) :=
  if EXPECTED_TOOTH_COUNT < sorted.length then
    List.insertionSort angleLE ((List.insertionSort areaGE sorted).take EXPECTED_TOOTH_COUNT)
  else sorted

/-- Reduction policy of `extract_teeth_contours_improved`
(`tooth1_image_processor.py`): with more candidates than
`EXPECTED_TOOTH_COUNT`, pick for each ideal slot `i * 360 / N` the candidate
with the closest angle, taken from the full sorted list each time. -/
def reduceClosest {γ : Type} (sorted : List (Candidate γ)) : List (Candidate γ) :=
  if EXPECTED_TOOTH_COUNT < sorted.length then
    (List.range EXPECTED_TOOTH_COUNT).filterMap (fun (i : Nat) =>
      minBy (fun t => |t.angle - (i : ℚ) * ((360 : ℚ) / (EXPECTED_TOOTH_COUNT : ℚ))|) sorted)
  else sorted

/-- The angular-order-and-reduce stage of `extract_teeth_from_gear_image`:
sort by angle, reduce by the keep-largest-area policy, index `1..N`. -/
def extract_teeth_from_gear_image {γ : Type} (teeth : List (Candidate γ)) :
    List (Nat × Candidate γ) :=
  (idxFrom 0 (reduceLargest (List.insertionSort angleLE teeth))).map
    (fun p => (p.1 + 1, p.2))

/-- The angular-order-and-reduce stage of `extract_teeth_contours_improved`:
sort by angle, reduce by the closest-to-ideal-slot policy, index `1..N`. -/
def extract_teeth_contours_improved {γ : Type} (teeth : List (Candidate γ)) :
    List (Nat × Candidate γ) :=
  (idxFrom 0 (reduceClosest (List.insertionSort angleLE teeth))).map
    (fun p => (p.1 + 1, p.2))

theorem idxFrom_snd {α : Type} (n : Nat) (l : List α) :
    (idxFrom n l).map Prod.snd = l := by
  induction l generalizing n with
  | nil => rfl
  | cons a l ih => simp [idxFrom, ih]

theorem idxFrom_fst_add_one {α : Type} (n : Nat) (l : List α) :
    (idxFrom n l).map (fun p => p.1 + 1) = List.range' (n + 1) l.length := by
  induction l generalizing n with
  | nil => rfl
  | cons a l ih => simp [idxFrom, List.range'_succ, ih]

theorem idxFrom_length {α : Type} (n : Nat) (l : List α) :
    (idxFrom n l).length = l.length := by
  induction l generalizing n with
  | nil => rfl
  | cons a l ih => simp [idxFrom, ih]

theorem minBy_isSome {γ : Type} (f : Candidate γ → ℚ) (l : List (Candidate γ))
    (hl : l ≠ []) : (minBy f l).isSome = true := by
  cases l with
  | nil => exact absurd rfl hl
  | cons a l =>
    rw [minBy]
    cases minBy f l with
    | none => rfl
    | some b =>
      simp only []
      by_cases h : f a ≤ f b
      · rw [if_pos h]; rfl
      · rw [if_neg h]; rfl

theorem filterMap_length_of_isSome {α β : Type} (f : α → Option β) (l : List α)
    (hf : ∀ a ∈ l, (f a).isSome = true) : (l.filterMap f).length = l.length := by
  induction l with
  | nil => rfl
  | cons a l ih =>
    obtain ⟨b, hb⟩ := Option.isSome_iff_exists.mp (hf a (List.mem_cons_self a l))
    rw [List.filterMap_cons, hb, List.length_cons,
      ih (fun x hx => hf x (List.mem_cons_of_mem a hx)), List.length_cons]

/-- `minBy` returns the first element attaining the minimal key: it is in the
list, its key is minimal, and every earlier element has a strictly larger
key. -/
theorem minBy_spec {γ : Type} (f : Candidate γ → ℚ) (l : List (Candidate γ)) :
    ∀ a, minBy f l = some a →
      ∃ i : Fin l.length, l.get i = a ∧
        (∀ j : Fin l.length, (j : Nat) < (i : Nat) → f a < f (l.get j)) ∧
        (∀ j : Fin l.length, f a ≤ f (l.get j)) := by
  induction l with
  | nil => intro a ha; cases ha
  | cons c rest ih =>
    intro a ha
    rw [minBy] at ha
    rcases hm : minBy f rest with _ | b
    · rw [hm] at ha
      simp only [] at ha
      have hc : c = a := Option.some_inj.mp ha
      subst hc
      have hrest : rest = [] := by
        cases rest with
        | nil => rfl
        | cons x xs =>
          rw [minBy] at hm
          rcases hm2 : minBy f xs with _ | y
          · rw [hm2] at hm; cases hm
          · rw [hm2] at hm
            simp only [] at hm
            by_cases hxy : f x ≤ f y
            · rw [if_pos hxy] at hm; cases hm
            · rw [if_neg hxy] at hm; cases hm
      subst hrest
      refine ⟨⟨0, by norm_num⟩, rfl, ?_, ?_⟩
      · intro j hj
        exact absurd hj (Nat.not_lt_zero _)
      · intro j
        match j with
        | ⟨0, _⟩ => exact le_refl _
        | ⟨Nat.succ k, hk⟩ => exact absurd (Nat.lt_of_succ_lt_succ hk) (Nat.not_lt_zero k)
    · rw [hm] at ha
      simp only [] at ha
      obtain ⟨ib, hget, hstrict, hmin⟩ := ih b hm
      by_cases hcb : f c ≤ f b
      · rw [if_pos hcb] at ha
        have hc : c = a := Option.some_inj.mp ha
        subst hc
        refine ⟨⟨0, by simp⟩, rfl, ?_, ?_⟩
        · intro j hj
          exact absurd hj (Nat.not_lt_zero _)
        · intro j
          match j with
          | ⟨0, _⟩ => exact le_refl _
          | ⟨Nat.succ k, hk⟩ =>
            exact le_trans hcb (hmin ⟨k, Nat.lt_of_succ_lt_succ hk⟩)
      · rw [if_neg hcb] at ha
        have hb : b = a := Option.some_inj.mp ha
        subst hb
        have hib : (ib : Nat) < rest.length := ib.isLt
        refine ⟨⟨(ib : Nat) + 1, Nat.succ_lt_succ hib⟩, hget, ?_, ?_⟩
        · intro j hj
          match j with
          | ⟨0, _⟩ => exact lt_of_not_le hcb
          | ⟨Nat.succ k, hk⟩ =>
            exact hstrict ⟨k, Nat.lt_of_succ_lt_succ hk⟩ (Nat.lt_of_succ_lt_succ hj)
        · intro j
          match j with
          | ⟨0, _⟩ => exact le_of_lt (lt_of_not_le hcb)
          | ⟨Nat.succ k, hk⟩ => exact hmin ⟨k, Nat.lt_of_succ_lt_succ hk⟩

/-- Quadrangle inequality for the absolute value on `ℚ`. -/
theorem abs_quadrangle (a b q1 q2 : ℚ) (hba : b ≤ a) (hq : q1 ≤ q2) :
    |a - q2| + |b - q1| ≤ |a - q1| + |b - q2| := by
  rcases abs_cases (a - q2) with ⟨e1, s1⟩ | ⟨e1, s1⟩ <;>
    rcases abs_cases (b - q1) with ⟨e2, s2⟩ | ⟨e2, s2⟩ <;>
      rcases abs_cases (a - q1) with ⟨e3, s3⟩ | ⟨e3, s3⟩ <;>
        rcases abs_cases (b - q2) with ⟨e4, s4⟩ | ⟨e4, s4⟩ <;>
          rw [e1, e2, e3, e4] <;> linarith

/-- The first-minimum selection against a fixed angle-sorted list is monotone
in the target angle. -/
theorem minBy_angle_monotone {γ : Type} (l : List (Candidate γ))
    (hsorted : l.Pairwise angleLE) (q1 q2 : ℚ) (hq : q1 ≤ q2)
    (a b : Candidate γ)
    (ha : minBy (fun t => |t.angle - q1|) l = some a)
    (hb : minBy (fun t => |t.angle - q2|) l = some b) :
    a.angle ≤ b.angle := by
  obtain ⟨ia, hga, hsa, hma⟩ := minBy_spec _ l a ha
  obtain ⟨ib, hgb, hsb, hmb⟩ := minBy_spec _ l b hb
  by_contra hc
  push_neg at hc
  have hib_lt_ia : (ib : Nat) < (ia : Nat) := by
    by_contra hle
    push_neg at hle
    rcases Nat.eq_or_lt_of_le hle with heq | hlt
    · have : ia = ib := Fin.ext heq
      rw [this, hgb] at hga
      rw [hga] at hc
      exact absurd hc (lt_irrefl _)
    · have := List.pairwise_iff_get.mp hsorted ia ib hlt
      rw [hga, hgb] at this
      exact absurd (lt_of_le_of_lt this hc) (lt_irrefl _)
  have h1 : |a.angle - q1| < |b.angle - q1| := by
    have := hsa ib hib_lt_ia
    rw [hgb] at this
    exact this
  have h2 : |b.angle - q2| ≤ |a.angle - q2| := by
    have := hmb ia
    rw [hga] at this
    exact this
  have h3 := abs_quadrangle a.angle b.angle q1 q2 (le_of_lt hc) hq
  linarith

theorem out_length {γ : Type} (l : List (Candidate γ)) :
    (((idxFrom 0 l).map (fun p => (p.1 + 1, p.2)))).length = l.length := by
  rw [List.length_map, idxFrom_length]

theorem out_map_fst {γ : Type} (l : List (Candidate γ)) :
    (((idxFrom 0 l).map (fun p => (p.1 + 1, p.2)))).map Prod.fst =
      List.range' 1 l.length := by
  rw [List.map_map]
  exact idxFrom_fst_add_one 0 l

theorem out_map_snd_g {γ : Type} {β : Type} (l : List (Candidate γ)) (g : Candidate γ → β) :
    (((idxFrom 0 l).map (fun p => (p.1 + 1, p.2)))).map (fun q => g q.2) = l.map g := by
  rw [List.map_map]
  have h1 : ((fun q : Nat × Candidate γ => g q.2) ∘ (fun p : Nat × Candidate γ => (p.1 + 1, p.2)))
      = ((g ∘ Prod.snd) : Nat × Candidate γ → β) := rfl
  rw [h1, ← List.map_map, idxFrom_snd]

theorem out_pairwise {γ : Type} (l : List (Candidate γ))
    (R : Candidate γ → Candidate γ → Prop) (h : l.Pairwise R) :
    (((idxFrom 0 l).map (fun p => (p.1 + 1, p.2)))).Pairwise
      (fun p q => R p.2 q.2) := by
  refine List.pairwise_map.mpr ?_
  have h2 : ((idxFrom 0 l).map Prod.snd).Pairwise R := by
    rw [idxFrom_snd]; exact h
  exact (List.pairwise_map.mp h2).imp (fun hh => hh)

/-- The amended claim C5, packaged.  Both policies return exactly
`EXPECTED_TOOTH_COUNT` entries indexed `1..N` in non-decreasing angular
order; the keep-largest-area policy moreover assigns pairwise distinct
contours, while the closest-slot policy may repeat one (see the
counterexample). -/
def TeethReductionSpec {γ : Type} (teeth : List (Candidate γ)) : Prop :=
  ((extract_teeth_from_gear_image teeth).length = EXPECTED_TOOTH_COUNT ∧
   (extract_teeth_from_gear_image teeth).map Prod.fst =
      List.range' 1 EXPECTED_TOOTH_COUNT ∧
   ((extract_teeth_from_gear_image teeth).map (fun p => p.2.contour)).Nodup ∧
   (extract_teeth_from_gear_image teeth).Pairwise
      (fun p q => p.2.angle ≤ q.2.angle)) ∧
  ((extract_teeth_contours_improved teeth).length = EXPECTED_TOOTH_COUNT ∧
   (extract_teeth_contours_improved teeth).map Prod.fst =
      List.range' 1 EXPECTED_TOOTH_COUNT ∧
   (extract_teeth_contours_improved teeth).Pairwise
      (fun p q => p.2.angle ≤ q.2.angle))

/-- Claim C5 (amended): with more valid candidates than
`EXPECTED_TOOTH_COUNT` and pairwise distinct input contours, both reduction
policies normalize to exactly `EXPECTED_TOOTH_COUNT` entries indexed `1..N`
in ascending angular order; policy (a) keeps the contours pairwise
distinct. -/
theorem teeth_reduction_normalizes {γ : Type} (teeth : List (Candidate γ))
    (hlen : EXPECTED_TOOTH_COUNT < teeth.length)
    (hnodup : (teeth.map Candidate.contour).Nodup) :
    TeethReductionSpec teeth := by
  have hsl : (List.insertionSort angleLE teeth).length = teeth.length :=
    List.length_insertionSort angleLE teeth
  have hcond : EXPECTED_TOOTH_COUNT < (List.insertionSort angleLE teeth).length := by
    rw [hsl]; exact hlen
  have hs_nodup : ((List.insertionSort angleLE teeth).map Candidate.contour).Nodup :=
    (((List.perm_insertionSort angleLE teeth).map Candidate.contour).symm).nodup hnodup
  have hra : reduceLargest (List.insertionSort angleLE teeth) =
      List.insertionSort angleLE
        ((List.insertionSort areaGE (List.insertionSort angleLE teeth)).take
          EXPECTED_TOOTH_COUNT) := by
    rw [reduceLargest, if_pos hcond]
  have hlen_a : (reduceLargest (List.insertionSort angleLE teeth)).length =
      EXPECTED_TOOTH_COUNT := by
    rw [hra, List.length_insertionSort, List.length_take, List.length_insertionSort,
      hsl]
    exact min_eq_left (le_of_lt hlen)
  have hnodup_a : ((reduceLargest (List.insertionSort angleLE teeth)).map
      Candidate.contour).Nodup := by
    rw [hra]
    have h2 : ((List.insertionSort areaGE (List.insertionSort angleLE teeth)).map
        Candidate.contour).Nodup :=
      (((List.perm_insertionSort areaGE _).map Candidate.contour).symm).nodup hs_nodup
    have h3 : (((List.insertionSort areaGE (List.insertionSort angleLE teeth)).take
        EXPECTED_TOOTH_COUNT).map Candidate.contour).Nodup :=
      ((List.take_sublist _ _).map Candidate.contour).nodup h2
    exact (((List.perm_insertionSort angleLE _).map Candidate.contour)).symm.nodup h3
  have hsort_a : (reduceLargest (List.insertionSort angleLE teeth)).Pairwise angleLE := by
    rw [hra]
    exact List.sorted_insertionSort angleLE _
  have hsne : List.insertionSort angleLE teeth ≠ [] := by
    intro hc
    rw [hc] at hsl
    rw [← hsl] at hlen
    exact absurd hlen (by norm_num)
  have hrb : reduceClosest (List.insertionSort angleLE teeth) =
      (List.range EXPECTED_TOOTH_COUNT).filterMap (fun (i : Nat) =>
        minBy (fun t => |t.angle - (i : ℚ) * ((360 : ℚ) / (EXPECTED_TOOTH_COUNT : ℚ))|)
          (List.insertionSort angleLE teeth)) := by
    rw [reduceClosest, if_pos hcond]
  have hlen_b : (reduceClosest (List.insertionSort angleLE teeth)).length =
      EXPECTED_TOOTH_COUNT := by
    rw [hrb]
    rw [filterMap_length_of_isSome _ _ (fun i _ => minBy_isSome _ _ hsne)]
    exact List.length_range EXPECTED_TOOTH_COUNT
  have hsort_b : (reduceClosest (List.insertionSort angleLE teeth)).Pairwise angleLE := by
    rw [hrb]
    refine List.pairwise_filterMap.mpr ?_
    refine (List.pairwise_lt_range EXPECTED_TOOTH_COUNT).imp ?_
    intro i j hij x hx y hy
    rw [Option.mem_def] at hx hy
    have hspace : (0 : ℚ) ≤ (360 : ℚ) / (EXPECTED_TOOTH_COUNT : ℚ) := by
      norm_num [EXPECTED_TOOTH_COUNT]
    have hq : (i : ℚ) * ((360 : ℚ) / (EXPECTED_TOOTH_COUNT : ℚ)) ≤
        (j : ℚ) * ((360 : ℚ) / (EXPECTED_TOOTH_COUNT : ℚ)) :=
      mul_le_mul_of_nonneg_right (Nat.cast_le.mpr (le_of_lt hij)) hspace
    exact minBy_angle_monotone _ (List.sorted_insertionSort angleLE teeth) _ _ hq
      x y hx hy
  refine ⟨⟨?_, ?_, ?_, ?_⟩, ?_, ?_, ?_⟩
  · rw [extract_teeth_from_gear_image, out_length, hlen_a]
  · rw [extract_teeth_from_gear_image, out_map_fst, hlen_a]
  · rw [extract_teeth_from_gear_image, out_map_snd_g]
    exact hnodup_a
  · exact out_pairwise _ angleLE hsort_a
  · rw [extract_teeth_contours_improved, out_length, hlen_b]
  · rw [extract_teeth_contours_improved, out_map_fst, hlen_b]
  · exact out_pairwise _ angleLE hsort_b

theorem minBy_mem {γ : Type} (f : Candidate γ → ℚ) (l : List (Candidate γ))
    (a : Candidate γ) (h : minBy f l = some a) : a ∈ l := by
  obtain ⟨i, hget, _, _⟩ := minBy_spec f l a h
  rw [← hget]
  exact List.get_mem l i.1 i.2

theorem minBy_cons_head {γ : Type} (f : Candidate γ → ℚ) (c : Candidate γ)
    (l : List (Candidate γ)) (h : ∀ x ∈ l, f c ≤ f x) :
    minBy f (c :: l) = some c := by
  rw [minBy]
  rcases hm : minBy f l with _ | b
  · rfl
  · simp only []
    rw [if_pos (h b (minBy_mem f l b hm))]

/-- A gear photograph's worth of 36 filtered candidates (contour payloads are
pairwise distinct integers): one candidate near angle 5, the rest clustered
at angles 30..64. -/
def c5gear : List (Candidate Int) :=
  [⟨5, 100, 50⟩,
   ⟨30, 30, 50⟩, ⟨31, 31, 50⟩, ⟨32, 32, 50⟩, ⟨33, 33, 50⟩, ⟨34, 34, 50⟩,
   ⟨35, 35, 50⟩, ⟨36, 36, 50⟩, ⟨37, 37, 50⟩, ⟨38, 38, 50⟩, ⟨39, 39, 50⟩,
   ⟨40, 40, 50⟩, ⟨41, 41, 50⟩, ⟨42, 42, 50⟩, ⟨43, 43, 50⟩, ⟨44, 44, 50⟩,
   ⟨45, 45, 50⟩, ⟨46, 46, 50⟩, ⟨47, 47, 50⟩, ⟨48, 48, 50⟩, ⟨49, 49, 50⟩,
   ⟨50, 50, 50⟩, ⟨51, 51, 50⟩, ⟨52, 52, 50⟩, ⟨53, 53, 50⟩, ⟨54, 54, 50⟩,
   ⟨55, 55, 50⟩, ⟨56, 56, 50⟩, ⟨57, 57, 50⟩, ⟨58, 58, 50⟩, ⟨59, 59, 50⟩,
   ⟨60, 60, 50⟩, ⟨61, 61, 50⟩, ⟨62, 62, 50⟩, ⟨63, 63, 50⟩, ⟨64, 64, 50⟩]

set_option maxHeartbeats 1000000 in
theorem c5gear_slot0 :
    minBy (fun t : Candidate Int =>
      |t.angle - ((0 : Nat) : ℚ) * ((360 : ℚ) / (EXPECTED_TOOTH_COUNT : ℚ))|) c5gear =
      some ⟨5, 100, 50⟩ := by
  refine minBy_cons_head _ _ _ ?_
  intro x hx
  fin_cases hx <;> norm_num [EXPECTED_TOOTH_COUNT, abs_of_nonneg, abs_of_nonpos]

set_option maxHeartbeats 1000000 in
theorem c5gear_slot1 :
    minBy (fun t : Candidate Int =>
      |t.angle - ((1 : Nat) : ℚ) * ((360 : ℚ) / (EXPECTED_TOOTH_COUNT : ℚ))|) c5gear =
      some ⟨5, 100, 50⟩ := by
  refine minBy_cons_head _ _ _ ?_
  intro x hx
  fin_cases hx <;> norm_num [EXPECTED_TOOTH_COUNT, abs_of_nonneg, abs_of_nonpos]

set_option maxHeartbeats 1000000 in
/-- Claim C5 as stated is false for the closest-slot policy: on `c5gear`
(36 pairwise distinct contours) the output assigns the same contour (`100`)
to tooth indices 1 and 2, so an index is not occupied by its own distinct
contour. -/
theorem teeth_reduction_counterexample :
    ((extract_teeth_contours_improved c5gear).get? 0).map (fun p => (p.1, p.2.contour)) =
      some (1, 100) ∧
    ((extract_teeth_contours_improved c5gear).get? 1).map (fun p => (p.1, p.2.contour)) =
      some (2, 100) ∧
    (c5gear.map Candidate.contour).Nodup := by
  refine ⟨?_, ?_, by decide⟩ <;>
  · rw [extract_teeth_contours_improved,
      List.Sorted.insertionSort_eq (by decide : List.Sorted angleLE c5gear),
      reduceClosest, if_pos (by decide : EXPECTED_TOOTH_COUNT < c5gear.length),
      show List.range EXPECTED_TOOTH_COUNT = 0 :: 1 :: List.range' 2 33 from by decide,
      List.filterMap_cons, List.filterMap_cons]
    simp only [c5gear_slot0, c5gear_slot1, idxFrom, List.map_cons, List.get?_cons_zero,
      List.get?_cons_succ, Option.map_some']

theorem teeth_reduction_witness :
    (EXPECTED_TOOTH_COUNT < c5gear.length ∧ (c5gear.map Candidate.contour).Nodup) ∧
    TeethReductionSpec c5gear :=
  ⟨⟨by decide, by decide⟩, teeth_reduction_normalizes c5gear (by decide) (by decide)⟩

/-- `GEAR_MODULE` from `gear_parameters.py` (mm). -/
def GEAR_MODULE : ℝ := 3

/-- `STANDARD_TOOTH_THICKNESS = math.pi * GEAR_MODULE / 2` (mm). -/
noncomputable def STANDARD_TOOTH_THICKNESS : ℝ := Real.pi * GEAR_MODULE / 2

/-- `STANDARD_TOOTH_HEIGHT = 1.00 * GEAR_MODULE + 1.25 * GEAR_MODULE` (mm). -/
def STANDARD_TOOTH_HEIGHT : ℝ := 1.00 * GEAR_MODULE + 1.25 * GEAR_MODULE

/-- `estimate_scale_factor_from_gear` from `tooth1_image_processor.py`: the
geometry-estimated micrometers-per-pixel factor, clamped into `[4, 10]`
(`6.0` for a degenerate non-positive area). -/
noncomputable def estimate_scale_factor_from_gear (healthy_contour_area : ℝ) : ℝ :=
  if 0 < healthy_contour_area then
    max 4.0 (min (Real.sqrt ((STANDARD_TOOTH_THICKNESS * STANDARD_TOOTH_HEIGHT) /
      healthy_contour_area) * 1000 * 0.8) 10.0)
  else 6.0

/-- The effective factor of `extract_early_wear_features`:
`target_um_per_px * 0.3 + estimated_scale_factor * 0.7`. -/
noncomputable def effective_scale_factor (target healthy_area : ℝ) : ℝ :=
  target * 0.3 + estimate_scale_factor_from_gear healthy_area * 0.7

/-- The OpenCV-level measurements of one contour that
`extract_early_wear_features` reads: area, arc length, bounding-box width and
height, convex-hull area, the four distance-transform statistics of the
rendered mask and the Canny edge-pixel sum. -/
structure ContourMeasure where
  area : ℝ
  perimeter : ℝ
  bbox_w : ℝ
  bbox_h : ℝ
  hull_area : ℝ
  dt_max : ℝ
  dt_mean : ℝ
  dt_median : ℝ
  dt_std : ℝ
  edge_sum : ℝ

/-- Division as Python executes it: a zero denominator raises
(`ZeroDivisionError`), modelled by `none`. -/
noncomputable def checkedDiv (a b : ℝ) : Option ℝ :=
  if b = 0 then none else some (a / b)

/-- A feature key the scaling loop multiplies: `'loss' in key or
'diff' in key`. -/
def isScaledKey (k : String) : Bool :=
  decide ("loss".toList <:+: k.toList) || decide ("diff".toList <:+: k.toList)

/-- The feature dictionary of `extract_early_wear_features` before the
scaling loop, in the code's insertion order, with every division checked. -/
noncomputable def raw_early_wear_features (healthy worn : ContourMeasure) :
    Option (List (String × ℝ)) := do
  let area_ratio ← checkedDiv worn.area (max healthy.area 1)
  let area_loss ← checkedDiv (healthy.area - worn.area) (max healthy.area 1)
  let perimeter_ratio ← checkedDiv worn.perimeter (max healthy.perimeter 1)
  let perimeter_loss ← checkedDiv (healthy.perimeter - worn.perimeter) (max healthy.perimeter 1)
  let height_ratio ← checkedDiv worn.bbox_h (max healthy.bbox_h 1)
  let width_ratio ← checkedDiv worn.bbox_w (max healthy.bbox_w 1)
  let height_loss ← checkedDiv (healthy.bbox_h - worn.bbox_h) (max healthy.bbox_h 1)
  let width_loss ← checkedDiv (healthy.bbox_w - worn.bbox_w) (max healthy.bbox_w 1)
  let hull_area_ratio ← checkedDiv worn.hull_area (max healthy.hull_area 1)
  let hull_area_loss ← checkedDiv (healthy.hull_area - worn.hull_area) (max healthy.hull_area 1)
  let healthy_solidity ← checkedDiv healthy.area (max healthy.hull_area 1)
  let worn_solidity ← checkedDiv worn.area (max worn.hull_area 1)
  let solidity_ratio ← checkedDiv worn_solidity (max healthy_solidity 1)
  let edge_density_ratio ← checkedDiv worn.edge_sum (max healthy.edge_sum 1)
  let edge_density_loss ← checkedDiv (healthy.edge_sum - worn.edge_sum) (max healthy.edge_sum 1)
  some [("area_ratio", area_ratio), ("area_loss", area_loss),
    ("area_loss_squared", area_loss ^ 2), ("area_loss_cubic", area_loss ^ 3),
    ("area_loss_sqrt", Real.sqrt area_loss),
    ("perimeter_ratio", perimeter_ratio), ("perimeter_loss", perimeter_loss),
    ("height_ratio", height_ratio), ("width_ratio", width_ratio),
    ("height_loss", height_loss), ("width_loss", width_loss),
    ("height_loss_squared", height_loss ^ 2),
    ("hull_area_ratio", hull_area_ratio), ("hull_area_loss", hull_area_loss),
    ("solidity_ratio", solidity_ratio),
    ("solidity_loss", healthy_solidity - worn_solidity),
    ("dt_max_diff", healthy.dt_max - worn.dt_max),
    ("dt_mean_diff", healthy.dt_mean - worn.dt_mean),
    ("dt_median_diff", healthy.dt_median - worn.dt_median),
    ("dt_std_diff", healthy.dt_std - worn.dt_std),
    ("edge_density_ratio", edge_density_ratio),
    ("edge_density_loss", edge_density_loss)]

/-- `extract_early_wear_features` from `tooth1_image_processor.py`: build the
raw feature dictionary, then multiply every `loss`/`diff` keyed entry by the
effective scale factor. -/
noncomputable def extract_early_wear_features (healthy worn : ContourMeasure)
    (target_um_per_px : ℝ := 6.0) : Option (List (String × ℝ)) :=
  (raw_early_wear_features healthy worn).map (fun raw =>
    raw.map (fun kv =>
      if isScaledKey kv.1 then
        (kv.1, kv.2 * effective_scale_factor target_um_per_px healthy.area)
      else kv))

theorem checkedDiv_max (a x : ℝ) : checkedDiv a (max x 1) = some (a / max x 1) := by
  rw [checkedDiv, if_neg]
  exact ne_of_gt (lt_of_lt_of_le zero_lt_one (le_max_right x 1))

/-- Claim C9: with every denominator guarded by `max(x, 1)`, the feature
extraction never divides by zero: it returns a feature mapping for every
pair of contour measurements, degenerate ones included. -/
theorem extract_early_wear_features_total (healthy worn : ContourMeasure) (t : ℝ) :
    (extract_early_wear_features healthy worn t).isSome = true := by
  rw [extract_early_wear_features, raw_early_wear_features]
  simp only [checkedDiv_max, Option.bind_eq_bind, Option.some_bind, Option.map_some']
  rfl

theorem estimate_scale_bounds (a : ℝ) :
    4 ≤ estimate_scale_factor_from_gear a ∧ estimate_scale_factor_from_gear a ≤ 10 := by
  rw [estimate_scale_factor_from_gear]
  split
  · constructor
    · exact le_trans (by norm_num) (le_max_left (4.0 : ℝ) _)
    · exact max_le (by norm_num) (le_trans (min_le_right _ _) (by norm_num))
  · norm_num

/-- Claim C6 (amended): the geometry-estimated factor always lies in
`[4, 10]`; the effective factor is the `30/70` blend of the caller-supplied
target with it, and lies in `[4, 10]` whenever the target does (in
particular for the default `6.0`); `loss`/`diff` keyed features are
multiplied by the effective factor while the other (ratio) keys are left
unscaled. -/
theorem effective_scale_spec (a t : ℝ) :
    (4 ≤ estimate_scale_factor_from_gear a ∧ estimate_scale_factor_from_gear a ≤ 10) ∧
    effective_scale_factor t a = t * 0.3 + estimate_scale_factor_from_gear a * 0.7 ∧
    (4 ≤ t → t ≤ 10 →
      4 ≤ effective_scale_factor t a ∧ effective_scale_factor t a ≤ 10) ∧
    (∀ healthy worn : ContourMeasure, ∀ raw fs : List (String × ℝ),
      healthy.area = a →
      raw_early_wear_features healthy worn = some raw →
      extract_early_wear_features healthy worn t = some fs →
      ∀ k v, (k, v) ∈ raw →
        (isScaledKey k = true → (k, v * effective_scale_factor t a) ∈ fs) ∧
        (isScaledKey k = false → (k, v) ∈ fs)) := by
  obtain ⟨he4, he10⟩ := estimate_scale_bounds a
  refine ⟨⟨he4, he10⟩, rfl, fun ht4 ht10 => ⟨?_, ?_⟩, ?_⟩
  · rw [effective_scale_factor]; nlinarith
  · rw [effective_scale_factor]; nlinarith
  · intro healthy worn raw fs harea hraw hfs k v hkv
    rw [extract_early_wear_features, hraw, Option.map_some'] at hfs
    have hfs' : fs = raw.map (fun kv =>
        if isScaledKey kv.1 then
          (kv.1, kv.2 * effective_scale_factor t healthy.area)
        else kv) := (Option.some_inj.mp hfs).symm
    constructor
    · intro hsc
      rw [hfs', harea]
      refine List.mem_map.mpr ⟨(k, v), hkv, ?_⟩
      rw [if_pos]
      exact hsc
    · intro hsc
      rw [hfs']
      refine List.mem_map.mpr ⟨(k, v), hkv, ?_⟩
      rw [if_neg]
      rw [hsc]
      exact Bool.false_ne_true

/-- Claim C6 as stated is false without a bound on the caller-supplied
target scale: with target `100` the effective factor exceeds `10`. -/
theorem effective_scale_counterexample :
    10 < effective_scale_factor 100 1 := by
  have h := (estimate_scale_bounds 1).1
  rw [effective_scale_factor]
  nlinarith

/-- Rounding to one decimal place, as `DataFrame.round(1)` stores the table
values.  (`round` rounds a half up; pandas rounds a half to even — both are
within `0.05` of the original value, which is all the round-trip claim
needs.) -/
def round1 (x : ℚ) : ℚ := ((round (x * 10) : ℤ) : ℚ) / 10

/-- The sorted distinct key list a pandas pivot uses for its index and
columns. -/
def sortedKeys (l : List Int) : List Int :=
  List.insertionSort (fun a b : Int => a ≤ b) l.dedup

/-- `save_table_format` from `data_utils.py` for the multi-tooth result set:
pivot to one row per tooth (ascending), one column per wear case (ascending,
labelled `W<n>` in the file), cell values rounded to one decimal. -/
def save_table_format (results : List MRecord) : List (Int × List (Int × ℚ)) :=
  (sortedKeys (results.map (fun r => r.tooth_number))).map (fun t =>
    (t, (sortedKeys (results.map (fun r => r.wear_case))).map (fun c =>
      (c, round1 (((results.find? (fun r =>
        r.tooth_number == t && r.wear_case == c)).map
          (fun r => r.wear_depth_um)).getD 0)))))

/-- The mapping `load_all_teeth_data` (from `data_loader.py`) reconstructs
from the table: the value stored for wear case `c` of tooth `t`. -/
def load_all_teeth_data (table : List (Int × List (Int × ℚ))) (c t : Int) : Option ℚ :=
  (table.find? (fun row => row.1 == t)).bind (fun row =>
    (row.2.find? (fun cell => cell.1 == c)).map (fun cell => cell.2))

/-- The premise of the round-trip claim: exactly one record per
`(tooth_number, wear_case)` pair, over the full grid of teeth and cases. -/
def TableKeysComplete (results : List MRecord) : Prop :=
  (results.map (fun r => (r.tooth_number, r.wear_case))).Nodup ∧
  ∀ t ∈ results.map (fun r => r.tooth_number),
    ∀ c ∈ results.map (fun r => r.wear_case),
      ∃ r ∈ results, r.tooth_number = t ∧ r.wear_case = c

theorem find?_keyed_map {β : Type} (g : Int → β) (keys : List Int) (t0 : Int)
    (h : t0 ∈ keys) :
    (keys.map (fun t => (t, g t))).find? (fun row => row.1 == t0) =
      some (t0, g t0) := by
  induction keys with
  | nil => exact absurd h (List.not_mem_nil t0)
  | cons k rest ih =>
    rw [List.map_cons]
    by_cases hk : k = t0
    · subst hk
      exact List.find?_cons_of_pos _ (beq_self_eq_true k)
    · rw [List.find?_cons_of_neg]
      · refine ih ?_
        rcases List.mem_cons.mp h with h' | h'
        · exact absurd h'.symm hk
        · exact h'
      · simp [hk]

theorem round1_close (x : ℚ) : |round1 x - x| ≤ 1 / 20 := by
  have h := abs_sub_round (x * 10)
  rw [round1, show ((round (x * 10) : ℤ) : ℚ) / 10 - x =
    (((round (x * 10) : ℤ) : ℚ) - x * 10) / 10 by ring, abs_div,
    show |(10 : ℚ)| = 10 by norm_num, abs_sub_comm]
  linarith

/-- Claim C7: a complete one-record-per-cell multi-tooth result set, written
to the pivoted table and read back, reproduces every
`(wear_case, tooth_number) → wear_depth_um` entry to within `0.05`. -/
theorem save_load_round_trip (results : List MRecord)
    (h : TableKeysComplete results) :
    ∀ r ∈ results, ∃ v,
      load_all_teeth_data (save_table_format results) r.wear_case r.tooth_number =
        some v ∧ |v - r.wear_depth_um| ≤ 1 / 20 := by
  obtain ⟨hnodup, _⟩ := h
  intro r hr
  have ht : r.tooth_number ∈ sortedKeys (results.map (fun x => x.tooth_number)) := by
    rw [sortedKeys, List.mem_insertionSort, List.mem_dedup]
    exact List.mem_map.mpr ⟨r, hr, rfl⟩
  have hc : r.wear_case ∈ sortedKeys (results.map (fun x => x.wear_case)) := by
    rw [sortedKeys, List.mem_insertionSort, List.mem_dedup]
    exact List.mem_map.mpr ⟨r, hr, rfl⟩
  have hfind : results.find? (fun x =>
      x.tooth_number == r.tooth_number && x.wear_case == r.wear_case) = some r := by
    have hsome : (results.find? (fun x =>
        x.tooth_number == r.tooth_number && x.wear_case == r.wear_case)).isSome := by
      refine List.find?_isSome.mpr ⟨r, hr, ?_⟩
      rw [Bool.and_eq_true]
      exact ⟨beq_self_eq_true _, beq_self_eq_true _⟩
    obtain ⟨r', hr'⟩ := Option.isSome_iff_exists.mp hsome
    have hpred := @List.find?_some _ _ _ _ hr'
    have hpred' : (r'.tooth_number == r.tooth_number && r'.wear_case == r.wear_case)
        = true := hpred
    rw [Bool.and_eq_true] at hpred'
    have hkey : (fun x : MRecord => (x.tooth_number, x.wear_case)) r' =
        (fun x : MRecord => (x.tooth_number, x.wear_case)) r := by
      simp only []
      rw [beq_iff_eq.mp hpred'.1, beq_iff_eq.mp hpred'.2]
    have heq : r' = r := List.inj_on_of_nodup_map hnodup
      (List.mem_of_find?_eq_some hr') hr hkey
    rw [heq] at hr'
    exact hr'
  refine ⟨round1 r.wear_depth_um, ?_, round1_close r.wear_depth_um⟩
  rw [load_all_teeth_data, save_table_format,
    find?_keyed_map (fun t => (sortedKeys (results.map (fun r => r.wear_case))).map
      (fun c => (c, round1 (((results.find? (fun x =>
        x.tooth_number == t && x.wear_case == c)).map
          (fun x => x.wear_depth_um)).getD 0)))) _ r.tooth_number ht]
  simp only [Option.some_bind]
  rw [find?_keyed_map (fun c => (c, round1 (((results.find? (fun x =>
        x.tooth_number == r.tooth_number && x.wear_case == c)).map
          (fun x => x.wear_depth_um)).getD 0)).2) _ r.wear_case hc]
  simp only [hfind, Option.map_some', Option.getD_some]

instance (results : List MRecord) : Decidable (TableKeysComplete results) :=
  inferInstanceAs (Decidable
    ((results.map (fun r : MRecord => (r.tooth_number, r.wear_case))).Nodup ∧
    ∀ t ∈ results.map (fun r : MRecord => r.tooth_number),
      ∀ c ∈ results.map (fun r : MRecord => r.wear_case),
        ∃ r ∈ results, r.tooth_number = t ∧ r.wear_case = c))

/-- A complete 2-teeth, 2-cases result set for the round-trip witness. -/
def c7demo : List MRecord :=
  [⟨1, 1, 12, "actual_measurement"⟩, ⟨1, 2, 20, "actual_measurement"⟩,
   ⟨2, 1, 13, "actual_measurement"⟩, ⟨2, 2, 21, "actual_measurement"⟩]

theorem save_load_round_trip_witness :
    TableKeysComplete c7demo ∧
    (∀ r ∈ c7demo, ∃ v,
      load_all_teeth_data (save_table_format c7demo) r.wear_case r.tooth_number =
        some v ∧ |v - r.wear_depth_um| ≤ 1 / 20) :=
  ⟨by decide, save_load_round_trip c7demo (by decide)⟩
